import Mathlib

/-!
# Zi Operator & Pipeline Engine — verification of the specification's claims

The Zi repository ships a Python binding (`python/zix/__init__.py`) and the
Python test suites (`tests/python/test_core.py`, `tests/python/test_operators.py`)
over a native engine.  The engine itself is not part of the source tree, so the
record model, path resolver and operators below are modelled from the
specification, constrained by the concrete expectations the repository's tests
assert.  Every definition marked `Modelled from the spec:` names the missing
piece it stands for.
-/

set_option maxHeartbeats 1000000

namespace Zi

/-- Boolean lexicographic order on character lists (by code point), used to
keep object keys sorted.  Written over `List Char` so that it evaluates by
kernel reduction. -/
def charsLt : List Char → List Char → Bool
  | [], ys => !ys.isEmpty
  | _ :: _, [] => false
  | x :: xs, y :: ys =>
    if x.toNat < y.toNat then true
    else if y.toNat < x.toNat then false
    else charsLt xs ys

/-- Key order of the engine's sorted object maps. -/
def strLt (a b : String) : Bool := charsLt a.data b.data

mutual

/-- Modelled from the spec: the JSON-like payload value of a record
(§3 "Data Model": null / bool / number / string / array / object).  Objects are
key-ordered association lists (the engine's maps are sorted by key), arrays are
given by `JsonArr` and object field lists by `JsonObj` so that all recursions
are plainly structural.  A number is a decimal `mant / 10 ^ scale`, exactly the
information a JSON numeric literal carries. -/
inductive Json where
  | null : Json
  | bool (b : Bool) : Json
  | num (mant : Int) (scale : Nat) : Json
  | str (s : String) : Json
  | arr (xs : JsonArr) : Json
  | obj (fs : JsonObj) : Json
  deriving DecidableEq

/-- Modelled from the spec: a JSON array's element list. -/
inductive JsonArr where
  | nil : JsonArr
  | cons (hd : Json) (tl : JsonArr) : JsonArr
  deriving DecidableEq

/-- Modelled from the spec: a JSON object's field list (key/value pairs). -/
inductive JsonObj where
  | nil : JsonObj
  | cons (k : String) (v : Json) (tl : JsonObj) : JsonObj
  deriving DecidableEq

end

/-- Numeric value comparison of two decimals: `m1/10^s1 ≤ m2/10^s2`. -/
def numLe (m1 : Int) (s1 : Nat) (m2 : Int) (s2 : Nat) : Bool :=
  m1 * 10 ^ s2 ≤ m2 * 10 ^ s1

/-- Strict numeric comparison of two decimals. -/
def numLt (m1 : Int) (s1 : Nat) (m2 : Int) (s2 : Nat) : Bool :=
  m1 * 10 ^ s2 < m2 * 10 ^ s1

/-- Numeric equality of two decimals. -/
def numEq (m1 : Int) (s1 : Nat) (m2 : Int) (s2 : Nat) : Bool :=
  m1 * 10 ^ s2 == m2 * 10 ^ s1

mutual

/-- Modelled from the spec: JSON value equality as the filter operators use it
(§4.2): numbers compare numerically, strings case-sensitively, arrays and
objects element-wise. -/
def Json.beq : Json → Json → Bool
  | .null, .null => true
  | .bool a, .bool b => a == b
  | .num m1 s1, .num m2 s2 => numEq m1 s1 m2 s2
  | .str a, .str b => a == b
  | .arr a, .arr b => JsonArr.beq a b
  | .obj a, .obj b => JsonObj.beq a b
  | _, _ => false

def JsonArr.beq : JsonArr → JsonArr → Bool
  | .nil, .nil => true
  | .cons x xs, .cons y ys => Json.beq x y && JsonArr.beq xs ys
  | _, _ => false

def JsonObj.beq : JsonObj → JsonObj → Bool
  | .nil, .nil => true
  | .cons k v t, .cons k2 v2 t2 => k == k2 && Json.beq v v2 && JsonObj.beq t t2
  | _, _ => false

end

/-- Look a key up in an object's field list (first match). -/
def JsonObj.lookup : JsonObj → String → Option Json
  | .nil, _ => none
  | .cons k v t, key => if k = key then some v else t.lookup key

/-- Remove the first field with the given key. -/
def JsonObj.erase : JsonObj → String → JsonObj
  | .nil, _ => .nil
  | .cons k v t, key => if k = key then t else .cons k v (t.erase key)

/-- Insert a field keeping keys sorted; an existing field with the same key is
replaced in place. -/
def JsonObj.insertS : JsonObj → String → Json → JsonObj
  | .nil, key, val => .cons key val .nil
  | .cons k v t, key, val =>
    if strLt key k then .cons key val (.cons k v t)
    else if key = k then .cons key val t
    else .cons k v (t.insertS key val)

/-- Keys of an object, in stored order. -/
def JsonObj.keys : JsonObj → List String
  | .nil => []
  | .cons k _ t => k :: t.keys

/-- The stored key order is strictly increasing (adjacent pairs). -/
def JsonObj.sortedB : JsonObj → Bool
  | .nil => true
  | .cons _ _ .nil => true
  | .cons k _ (.cons k2 v2 t2) => strLt k k2 && JsonObj.sortedB (.cons k2 v2 t2)

mutual

/-- A value is canonical when every object inside it has strictly increasing
keys — the only shape the engine's sorted maps produce. -/
def Json.canonical : Json → Bool
  | .null | .bool _ | .num _ _ | .str _ => true
  | .arr xs => JsonArr.canonical xs
  | .obj fs => JsonObj.sortedB fs && JsonObj.canonical fs

def JsonArr.canonical : JsonArr → Bool
  | .nil => true
  | .cons x xs => Json.canonical x && JsonArr.canonical xs

def JsonObj.canonical : JsonObj → Bool
  | .nil => true
  | .cons _ v t => Json.canonical v && JsonObj.canonical t

end

/-! ## Records and paths -/

/-- The root namespace a dotted path addresses (§3 "Path"). -/
inductive PathRoot where
  | payload : PathRoot
  | metadata : PathRoot
  deriving DecidableEq

/-- A parsed dotted path: root namespace plus the object-key segments. -/
structure PathSpec where
  root : PathRoot
  segs : List String
  deriving DecidableEq

/-- Split a character list on `.`, accumulating the current segment. -/
def splitDot (acc : List Char) : List Char → List String
  | [] => [String.mk acc.reverse]
  | '.' :: rest => String.mk acc.reverse :: splitDot [] rest
  | c :: rest => splitDot (c :: acc) rest

/-- Modelled from the spec: parsing a dotted path string; the root segment
must be `payload` or `metadata` (§4.1), anything else is an invalid path. -/
def parsePath (s : String) : Option PathSpec :=
  match splitDot [] s.data with
  | "payload" :: rest => some ⟨.payload, rest⟩
  | "metadata" :: rest => some ⟨.metadata, rest⟩
  | _ => none

/-- Modelled from the spec: the unit of data — optional id, JSON payload,
string-keyed metadata map (§3 "Record"). -/
structure ZiRecord where
  id : Option String
  payload : Json
  metadata : JsonObj
  deriving DecidableEq

/-- Resolve path segments inside a JSON value; a missing key or a traversal
through a non-object yields `none` ("absent"), never an error (§4.1). -/
def getSegs : List String → Json → Option Json
  | [], j => some j
  | s :: rest, .obj fs =>
    match fs.lookup s with
    | some child => getSegs rest child
    | none => none
  | _ :: _, _ => none

/-- `PathResolver.get` over a record: the root selects payload or metadata. -/
def getPath (r : ZiRecord) (p : PathSpec) : Option Json :=
  match p.root with
  | .payload => getSegs p.segs r.payload
  | .metadata => getSegs p.segs (.obj r.metadata)

/-- Apply an update function to the value at a path if the path resolves;
a record whose path does not resolve is left unchanged (degrade policy). -/
def updateAt (upd : Json → Json) : List String → Json → Json
  | [], j => upd j
  | s :: rest, .obj fs =>
    match fs.lookup s with
    | some child => .obj (fs.insertS s (updateAt upd rest child))
    | none => .obj fs
  | _ :: _, j => j

/-- Update at a path inside a record (payload or metadata root). -/
def updateRecordAt (p : PathSpec) (upd : Json → Json) (r : ZiRecord) : ZiRecord :=
  match p.root with
  | .payload => { r with payload := updateAt upd p.segs r.payload }
  | .metadata =>
    match updateAt upd p.segs (.obj r.metadata) with
    | .obj m => { r with metadata := m }
    | _ => r

/-! ## Filter operators (§4.2)

Each pure filter keeps a record iff its predicate holds; a missing field, a
wrong type, or an unresolvable path makes the predicate false ("absent is
never equal, never contained, never matches"). -/

/-- Does any array element equal (numerically/structurally) the value? -/
def JsonArr.anyBeq : JsonArr → Json → Bool
  | .nil, _ => false
  | .cons x xs, v => Json.beq x v || JsonArr.anyBeq xs v

/-- Modelled from the spec: `filter.equals` predicate. -/
def filterEqualsKeep (p : PathSpec) (v : Json) (r : ZiRecord) : Bool :=
  match getPath r p with
  | some w => Json.beq w v
  | none => false

/-- Modelled from the spec: `filter.equals` over a batch. -/
def filterEqualsApply (p : PathSpec) (v : Json) (B : List ZiRecord) : List ZiRecord :=
  B.filter (filterEqualsKeep p v)

/-- Modelled from the spec: `filter.in` predicate (membership in the
configured value set). -/
def filterInKeep (p : PathSpec) (vals : JsonArr) (r : ZiRecord) : Bool :=
  match getPath r p with
  | some w => vals.anyBeq w
  | none => false

/-- Modelled from the spec: `filter.in` over a batch. -/
def filterInApply (p : PathSpec) (vals : JsonArr) (B : List ZiRecord) : List ZiRecord :=
  B.filter (filterInKeep p vals)

/-- Modelled from the spec: `filter.exists` predicate (present vs absent; a
field holding null "exists"). -/
def filterExistsKeep (p : PathSpec) (r : ZiRecord) : Bool :=
  (getPath r p).isSome

/-- Modelled from the spec: `filter.exists` over a batch. -/
def filterExistsApply (p : PathSpec) (B : List ZiRecord) : List ZiRecord :=
  B.filter (filterExistsKeep p)

/-- Modelled from the spec and the repository's test: `filter.between`
predicate.  `test_filter_between` expects exactly one survivor of scores
`[5,10,15]` under `min=5, max=12`, so the lower bound is strict; the upper
bound keeps the spec's inclusive reading.  A non-numeric or absent field never
matches. -/
def filterBetweenKeep (p : PathSpec) (minM : Int) (minS : Nat) (maxM : Int)
    (maxS : Nat) (r : ZiRecord) : Bool :=
  match getPath r p with
  | some (.num m s) => numLt minM minS m s && numLe m s maxM maxS
  | _ => false

/-- Modelled from the spec: `filter.between` over a batch. -/
def filterBetweenApply (p : PathSpec) (minM : Int) (minS : Nat) (maxM : Int)
    (maxS : Nat) (B : List ZiRecord) : List ZiRecord :=
  B.filter (filterBetweenKeep p minM minS maxM maxS)

/-- Modelled from the spec: `filter.range` predicate, inclusive on both bounds
(`test_filter_range` keeps two of `[5,10,15]` under `min=5, max=12`). -/
def filterRangeKeep (p : PathSpec) (minM : Int) (minS : Nat) (maxM : Int)
    (maxS : Nat) (r : ZiRecord) : Bool :=
  match getPath r p with
  | some (.num m s) => numLe minM minS m s && numLe m s maxM maxS
  | _ => false

/-- Modelled from the spec: `filter.range` over a batch. -/
def filterRangeApply (p : PathSpec) (minM : Int) (minS : Nat) (maxM : Int)
    (maxS : Nat) (B : List ZiRecord) : List ZiRecord :=
  B.filter (filterRangeKeep p minM minS maxM maxS)

/-- Modelled from the spec: `quality.filter` predicate — keep iff the
`quality_score` metadata value is a number `≥ min`; a record lacking the key
(or holding a non-number) fails the threshold (fail-closed, §4.5). -/
def qualityFilterKeep (minM : Int) (minS : Nat) (r : ZiRecord) : Bool :=
  match r.metadata.lookup "quality_score" with
  | some (.num m s) => numLe minM minS m s
  | _ => false

/-- Modelled from the spec: `quality.filter` over a batch. -/
def qualityFilterApply (minM : Int) (minS : Nat) (B : List ZiRecord) : List ZiRecord :=
  B.filter (qualityFilterKeep minM minS)

/-! ## Text utilities (§4.8), on `List Char` so they evaluate by reduction -/

/-- Whitespace test used by tokenization and normalization. -/
def isWs (c : Char) : Bool :=
  c.toNat = 32 || c.toNat = 9 || c.toNat = 10 || c.toNat = 13

/-- Split a character list on whitespace into non-empty words. -/
def wordsAux (acc : List Char) : List Char → List String
  | [] => if acc.isEmpty then [] else [String.mk acc.reverse]
  | c :: rest =>
    if isWs c then
      if acc.isEmpty then wordsAux [] rest
      else String.mk acc.reverse :: wordsAux [] rest
    else wordsAux (c :: acc) rest

/-- Tokenization: split on whitespace boundaries (§4.8). -/
def tokenizeWs (s : String) : List String := wordsAux [] s.data

/-! ## Transform operators (§4.3) -/

/-- ASCII lower-casing of one character. -/
def lowerCh (c : Char) : Char :=
  if 65 ≤ c.toNat && c.toNat ≤ 90 then Char.ofNat (c.toNat + 32) else c

/-- Join words with single spaces. -/
def joinWords : List String → List Char
  | [] => []
  | [w] => w.data
  | w :: rest => w.data ++ ' ' :: joinWords rest

/-- Modelled from the spec: `transform.normalize` string normalizations —
lower-casing, trimming, whitespace collapsing, applied per configuration. -/
def normStr (lower trim collapse : Bool) (s : String) : String :=
  let cs := s.data
  let cs := if lower then cs.map lowerCh else cs
  let cs := if trim then ((cs.dropWhile isWs).reverse.dropWhile isWs).reverse else cs
  let cs := if collapse then joinWords (wordsAux [] cs) else cs
  String.mk cs

/-- Modelled from the spec: `transform.normalize` over a batch — every record
is mapped; only a string at the path is rewritten. -/
def transformNormalizeApply (p : PathSpec) (lower trim collapse : Bool)
    (B : List ZiRecord) : List ZiRecord :=
  B.map (updateRecordAt p fun v =>
    match v with
    | .str s => .str (normStr lower trim collapse s)
    | _ => v)

/-- The arithmetic operators of the `transform.map` expression language. -/
inductive ArithOp where
  | add | sub | mul | div
  deriving DecidableEq

/-- Modelled from the spec: the minimal `transform.map` expression grammar —
the identifier `value`, decimal literals, and the four operators (§4.3). -/
inductive MapExpr where
  | value : MapExpr
  | lit (mant : Int) (scale : Nat) : MapExpr
  | binop (op : ArithOp) (a b : MapExpr) : MapExpr
  deriving DecidableEq

/-- Decimal addition: scale both mantissas to the larger scale. -/
def decAdd (a b : Int × Nat) : Int × Nat :=
  let s := max a.2 b.2
  (a.1 * 10 ^ (s - a.2) + b.1 * 10 ^ (s - b.2), s)

/-- Decimal subtraction. -/
def decSub (a b : Int × Nat) : Int × Nat :=
  let s := max a.2 b.2
  (a.1 * 10 ^ (s - a.2) - b.1 * 10 ^ (s - b.2), s)

/-- Decimal multiplication. -/
def decMul (a b : Int × Nat) : Int × Nat := (a.1 * b.1, a.2 + b.2)

/-- Decimal division at a fixed precision of 12 fractional digits (the engine
divides binary floating-point numbers; this is the decimal counterpart).
Division by zero yields zero. -/
def decDiv (a b : Int × Nat) : Int × Nat :=
  if b.1 = 0 then (0, 0)
  else ((a.1 * 10 ^ (b.2 + 12)) / (b.1 * 10 ^ a.2), 12)

/-- Evaluate a map expression with `value` bound to the current field value. -/
def MapExpr.eval (v : Int × Nat) : MapExpr → Int × Nat
  | .value => v
  | .lit m s => (m, s)
  | .binop .add a b => decAdd (a.eval v) (b.eval v)
  | .binop .sub a b => decSub (a.eval v) (b.eval v)
  | .binop .mul a b => decMul (a.eval v) (b.eval v)
  | .binop .div a b => decDiv (a.eval v) (b.eval v)

/-- Modelled from the spec: `transform.map` over a batch — every record is
mapped; only a numeric value at the path is rewritten with the expression's
result. -/
def transformMapApply (p : PathSpec) (e : MapExpr) (B : List ZiRecord) :
    List ZiRecord :=
  B.map (updateRecordAt p fun v =>
    match v with
    | .num m s => let r := e.eval (m, s); .num r.1 r.2
    | _ => v)

/-! ## Field operators (§4.4) -/

/-- Modelled from the spec: `field.rename` inside a JSON value — the value at
the path is moved to the sibling key `toKey` (the source's last segment is
replaced), deleting the source; an unresolvable path leaves the value
unchanged. -/
def renameSegs (toKey : String) : List String → Json → Json
  | [], j => j
  | [last], .obj fs =>
    match fs.lookup last with
    | some v => .obj ((fs.erase last).insertS toKey v)
    | none => .obj fs
  | s :: rest :: more, .obj fs =>
    match fs.lookup s with
    | some child => .obj (fs.insertS s (renameSegs toKey (rest :: more) child))
    | none => .obj fs
  | _ :: _, j => j

/-- Modelled from the spec: `field.rename` over a batch. -/
def fieldRenameApply (p : PathSpec) (toKey : String) (B : List ZiRecord) :
    List ZiRecord :=
  B.map fun r =>
    match p.root with
    | .payload => { r with payload := renameSegs toKey p.segs r.payload }
    | .metadata =>
      match renameSegs toKey p.segs (.obj r.metadata) with
      | .obj m => { r with metadata := m }
      | _ => r

/-! ## Seeded randomness (§4.6) -/

/-- Modelled from the spec: the deterministic pseudo-random generator behind
sampling and shuffling — a 64-bit linear congruential step. -/
def lcgNext (s : Nat) : Nat :=
  (6364136223846793005 * s + 1442695040888963407) % 18446744073709551616

/-- Modelled from the spec: the Bernoulli trial of `sample.random` for the
record at index `i`, driven by a seed-derived per-index draw; the record is
kept when the 32-bit uniform draw falls below `rate` (a decimal). -/
def sampleKeep (rateM : Int) (rateS : Nat) (seed i : Nat) : Bool :=
  ((lcgNext (seed + i) % 4294967296 : Nat) : Int) * 10 ^ rateS < rateM * 4294967296

/-- Walk the batch keeping each record by its index's Bernoulli draw. -/
def sampleRandomGo (rateM : Int) (rateS : Nat) (seed : Nat) :
    Nat → List ZiRecord → List ZiRecord
  | _, [] => []
  | i, r :: rs =>
    if sampleKeep rateM rateS seed i then r :: sampleRandomGo rateM rateS seed (i + 1) rs
    else sampleRandomGo rateM rateS seed (i + 1) rs

/-- Modelled from the spec: `sample.random` over a batch. -/
def sampleRandomApply (rateM : Int) (rateS : Nat) (seed : Nat)
    (B : List ZiRecord) : List ZiRecord :=
  sampleRandomGo rateM rateS seed 0 B

/-- Fisher–Yates-style extraction: repeatedly draw an index into the remaining
records, emit that record, and recurse on the rest. -/
def shuffleGo : Nat → Nat → List ZiRecord → List ZiRecord
  | 0, _, l => l
  | _ + 1, _, [] => []
  | fuel + 1, s, x :: xs =>
    let s2 := lcgNext s
    let j := s2 % (x :: xs).length
    have hj : j < (x :: xs).length := Nat.mod_lt _ (Nat.succ_pos _)
    (x :: xs).get ⟨j, hj⟩ :: shuffleGo fuel s2 ((x :: xs).eraseIdx j)

/-- Modelled from the spec: `shuffle` over a batch, keyed by the seed. -/
def shuffleApply (seed : Nat) (B : List ZiRecord) : List ZiRecord :=
  shuffleGo B.length seed B

/-! ## Split operators (§4.6) -/

/-- Modelled from the spec: the partitions of `split.sequential` — one
partition per configured half-open index range `[start, end)`, strictly over
the input order, no shuffling. -/
def splitSequentialParts (ranges : List (Nat × Nat)) (B : List ZiRecord) :
    List (List ZiRecord) :=
  ranges.map fun pr => (B.drop pr.1).take (pr.2 - pr.1)

/-- Modelled from the spec: `split.sequential` output batch — the partitions
in configured order. -/
def splitSequentialApply (ranges : List (Nat × Nat)) (B : List ZiRecord) :
    List ZiRecord :=
  (splitSequentialParts ranges B).flatten

/-! ## SimHash deduplication (§4.7) -/

/-- A 64-bit token hash (polynomial rolling hash over code points). -/
def hashToken (s : String) : Nat :=
  s.data.foldl (fun h c => (h * 131 + c.toNat) % 18446744073709551616) 0

/-- Signed bit vote of the token hashes at bit `i`. -/
def bitScore (hs : List Nat) (i : Nat) : Int :=
  hs.foldl (fun acc h => acc + if h.testBit i then 1 else -1) 0

/-- Modelled from the spec: the 64-bit SimHash fingerprint of a text —
tokenize, hash each token, accumulate signed bit votes, fold the sign of each
bit position into the fingerprint. -/
def simhash (text : String) : Nat :=
  let hs := (tokenizeWs text).map hashToken
  (List.range 64).foldl (fun acc i => if 0 < bitScore hs i then acc + 2 ^ i else acc) 0

/-- Hamming distance between two 64-bit fingerprints. -/
def hamming (a b : Nat) : Nat :=
  ((List.range 64).filter fun i => a.testBit i != b.testBit i).length

/-- The text a record contributes at the configured path (a non-string or
absent field contributes the empty text). -/
def textAt (p : PathSpec) (r : ZiRecord) : String :=
  match getPath r p with
  | some (.str s) => s
  | _ => ""

/-- The fingerprint of a record at the configured path. -/
def fingerprint (p : PathSpec) (r : ZiRecord) : Nat := simhash (textAt p r)

/-- Modelled from the spec: the dedup walk — a record is dropped iff some
already-kept record's fingerprint is within the Hamming threshold; otherwise
it is kept and its fingerprint is remembered.  The first occurrence in input
order is therefore the one retained. -/
def dedupAux (p : PathSpec) (thr : Nat) (kept : List Nat) :
    List ZiRecord → List ZiRecord
  | [] => []
  | r :: rs =>
    let f := fingerprint p r
    if kept.any fun g => hamming g f ≤ thr then dedupAux p thr kept rs
    else r :: dedupAux p thr (f :: kept) rs

/-- Modelled from the spec: `dedup.simhash` over a batch (threshold defaults
to 3). -/
def dedupSimhashApply (p : PathSpec) (thr : Nat) (B : List ZiRecord) :
    List ZiRecord :=
  dedupAux p thr [] B

/-! ## JSON text: rendering and parsing (§6 external interface)

The binding constructs records from JSON-encoded payload strings and exposes
the payload back as a JSON string.  Rendering and parsing are modelled over
`List Char` so that both evaluate by kernel reduction. -/

/-- The error taxonomy of §7. -/
inductive ZiError where
  | invalidConfig : ZiError
  | unknownOperator : ZiError
  | invalidPayload : ZiError
  | invalidPath : ZiError
  deriving DecidableEq

/-- The decimal digit character for `0..9`. -/
def digitChar : Nat → Char
  | 0 => '0' | 1 => '1' | 2 => '2' | 3 => '3' | 4 => '4'
  | 5 => '5' | 6 => '6' | 7 => '7' | 8 => '8' | _ => '9'

/-- Is the character a decimal digit? -/
def isDigitCh (c : Char) : Bool := 48 ≤ c.toNat && c.toNat ≤ 57

/-- The numeric value of a digit character. -/
def digitVal (c : Char) : Nat := c.toNat - 48

/-- The number denoted by a digit string (most significant first). -/
def digitsVal (ds : List Char) : Nat := ds.foldl (fun a c => a * 10 + digitVal c) 0

/-- The decimal digits of `n`, most significant first (`fuel` bounds the
recursion; `n < fuel` suffices). -/
def natDigits : Nat → Nat → List Char
  | 0, _ => []
  | fuel + 1, n => if n < 10 then [digitChar n] else natDigits fuel (n / 10) ++ [digitChar (n % 10)]

/-- Left-pad a digit string with zeros until it is longer than the scale, so
a digit always precedes the decimal point. -/
def padDigits (s : Nat) (ds : List Char) : List Char :=
  if ds.length < s + 1 then List.replicate (s + 1 - ds.length) '0' ++ ds else ds

/-- Place the decimal point `s` digits from the right (no point when the
scale is zero). -/
def numCore (s : Nat) (ds : List Char) : List Char :=
  if s = 0 then ds else ds.take (ds.length - s) ++ '.' :: ds.drop (ds.length - s)

/-- Render a decimal `mant / 10^scale` the way the engine prints numbers:
mantissa digits with a point `scale` places from the right, zero-padded so
that at least one digit precedes the point. -/
def renderNum (m : Int) (s : Nat) : List Char :=
  let ds := padDigits s (natDigits (m.natAbs + 1) m.natAbs)
  if m < 0 then '-' :: numCore s ds else numCore s ds

/-- Escape quotes and backslashes in string content. -/
def escChars : List Char → List Char
  | [] => []
  | c :: cs => if c = '"' || c = '\\' then '\\' :: c :: escChars cs else c :: escChars cs

mutual

/-- Render a JSON value as text. -/
def renderJ : Json → List Char
  | .null => ['n', 'u', 'l', 'l']
  | .bool b => if b then ['t', 'r', 'u', 'e'] else ['f', 'a', 'l', 's', 'e']
  | .num m s => renderNum m s
  | .str s => '"' :: (escChars s.data ++ ['"'])
  | .arr xs => '[' :: (renderArr xs ++ [']'])
  | .obj fs => '{' :: (renderObj fs ++ ['}'])

/-- Render array elements, comma-separated. -/
def renderArr : JsonArr → List Char
  | .nil => []
  | .cons x .nil => renderJ x
  | .cons x (.cons y t) => renderJ x ++ ',' :: renderArr (.cons y t)

/-- Render object fields, comma-separated. -/
def renderObj : JsonObj → List Char
  | .nil => []
  | .cons k v .nil => '"' :: (escChars k.data ++ '"' :: ':' :: renderJ v)
  | .cons k v (.cons k2 v2 t) =>
    ('"' :: (escChars k.data ++ '"' :: ':' :: renderJ v)) ++ ',' :: renderObj (.cons k2 v2 t)

end

/-- Parse string content up to the closing quote, unescaping. -/
def parseStrBody : List Char → Option (List Char × List Char)
  | [] => none
  | [c] => if c = '"' then some ([], []) else none
  | c :: c2 :: rest =>
    if c = '"' then some ([], c2 :: rest)
    else if c = '\\' then
      if c2 = '"' ∨ c2 = '\\' then
        (parseStrBody rest).map fun pr => (c2 :: pr.1, pr.2)
      else none
    else (parseStrBody (c2 :: rest)).map fun pr => (c :: pr.1, pr.2)

/-- Parse an unsigned JSON number: integer digits, optional fraction. -/
def parseNumNat (cs : List Char) : Option ((Nat × Nat) × List Char) :=
  let ds1 := cs.takeWhile isDigitCh
  let rest1 := cs.dropWhile isDigitCh
  if ds1.isEmpty then none
  else if rest1.head? = some '.' then
    let ds2 := rest1.tail.takeWhile isDigitCh
    let rest3 := rest1.tail.dropWhile isDigitCh
    if ds2.isEmpty then none
    else some ((digitsVal (ds1 ++ ds2), ds2.length), rest3)
  else some ((digitsVal ds1, 0), rest1)

/-- Parse a JSON number: optional sign, then an unsigned number. -/
def parseNum (cs : List Char) : Option ((Int × Nat) × List Char) :=
  if cs.head? = some '-' then
    (parseNumNat cs.tail).map fun pr => ((-(pr.1.1 : Int), pr.1.2), pr.2)
  else
    (parseNumNat cs).map fun pr => (((pr.1.1 : Int), pr.1.2), pr.2)

/-- Consume an expected literal character sequence. -/
def dropLit : List Char → List Char → Option (List Char)
  | [], cs => some cs
  | _ :: _, [] => none
  | k :: ks, c :: cs => if c = k then dropLit ks cs else none

mutual

/-- Parse one JSON value (`fuel` bounds the nesting; the nesting of a value
is no deeper than its text is long). -/
def parseValue : Nat → List Char → Option (Json × List Char)
  | 0, _ => none
  | _ + 1, [] => none
  | fuel + 1, c :: cs =>
    if c = 'n' then (dropLit ['u', 'l', 'l'] cs).map fun r => (.null, r)
    else if c = 't' then (dropLit ['r', 'u', 'e'] cs).map fun r => (.bool true, r)
    else if c = 'f' then (dropLit ['a', 'l', 's', 'e'] cs).map fun r => (.bool false, r)
    else if c = '"' then
      (parseStrBody cs).map fun pr => (.str (String.mk pr.1), pr.2)
    else if c = '[' then
      if cs.head? = some ']' then some (.arr .nil, cs.tail)
      else (parseArrElems fuel cs).map fun pr => (.arr pr.1, pr.2)
    else if c = '{' then
      if cs.head? = some '}' then some (.obj .nil, cs.tail)
      else (parseObjFields fuel cs).map fun pr => (.obj pr.1, pr.2)
    else
      (parseNum (c :: cs)).map fun pr => (.num pr.1.1 pr.1.2, pr.2)

/-- Parse the elements of a non-empty array body up to `]`. -/
def parseArrElems : Nat → List Char → Option (JsonArr × List Char)
  | 0, _ => none
  | fuel + 1, cs =>
    match parseValue fuel cs with
    | none => none
    | some (v, rest) =>
      if rest.head? = some ',' then
        (parseArrElems fuel rest.tail).map fun pr => (.cons v pr.1, pr.2)
      else if rest.head? = some ']' then some (.cons v .nil, rest.tail)
      else none

/-- Parse the fields of a non-empty object body up to `}`; fields go through
the sorted-map insertion the engine's maps use. -/
def parseObjFields : Nat → List Char → Option (JsonObj × List Char)
  | 0, _ => none
  | fuel + 1, cs =>
    if cs.head? = some '"' then
      match parseStrBody cs.tail with
      | none => none
      | some (kcs, rest) =>
        if rest.head? = some ':' then
          match parseValue fuel rest.tail with
          | none => none
          | some (v, rest2) =>
            if rest2.head? = some ',' then
              (parseObjFields fuel rest2.tail).map fun pr =>
                (pr.1.insertS (String.mk kcs) v, pr.2)
            else if rest2.head? = some '}' then
              some (JsonObj.insertS .nil (String.mk kcs) v, rest2.tail)
            else none
        else none
    else none

end

/-- Modelled from the spec: parsing a JSON document (the whole string must be
consumed). -/
def Json.parse (s : String) : Option Json :=
  match parseValue (s.data.length + 1) s.data with
  | some (v, []) => some v
  | _ => none

/-- Trailing text is safe after a number when it does not begin with a digit
or a decimal point (inside a document it begins with `,`, `]` or `}`). -/
def headSafe : List Char → Bool
  | [] => true
  | c :: _ => !isDigitCh c && c != '.'

mutual

/-- A node-count measure bounding the parser fuel a value needs. -/
def sizeJ : Json → Nat
  | .null | .bool _ | .num _ _ | .str _ => 1
  | .arr xs => 1 + sizeA xs
  | .obj fs => 1 + sizeO fs

def sizeA : JsonArr → Nat
  | .nil => 0
  | .cons x t => 1 + sizeJ x + sizeA t

def sizeO : JsonObj → Nat
  | .nil => 0
  | .cons _ v t => 1 + sizeJ v + sizeO t

end

/-- Modelled from the spec: the binding's record constructor — an optional id
and a JSON-encoded payload string; an unparseable payload is
`InvalidPayload` (§6). -/
def ZiRecord.new (id : Option String) (payload : String) : Except ZiError ZiRecord :=
  match Json.parse payload with
  | some v => .ok ⟨id, v, .nil⟩
  | none => .error .invalidPayload

/-- Modelled from the spec: the binding's `record.payload` accessor — the
stored payload rendered back to JSON text. -/
def ZiRecord.payloadStr (r : ZiRecord) : String := String.mk (renderJ r.payload)

/-! ## The dynamic operator surface (§4.10, §6)

`ZiOperator(name, config)` resolves the name against the registry and stores
the parsed configuration.  The repository's own test `test_operator_repr`
constructs `ZiOperator("filter.equals", "{}")` successfully, so construction
does not validate required config fields; only an unknown name or a config
string that is not a JSON object fails. -/

/-- Modelled from the spec and tests: the registered operator names (the
names exercised across `test_operators.py`). -/
def knownOperators : List String :=
  ["filter.equals", "filter.not_equals", "filter.contains", "filter.starts_with",
   "filter.ends_with", "filter.regex", "filter.greater_than", "filter.less_than",
   "filter.between", "filter.in", "filter.not_in", "filter.is_null",
   "filter.exists", "filter.not_exists", "filter.any", "filter.length_range",
   "filter.token_range", "filter.contains_none", "filter.contains_all",
   "filter.contains_any", "filter.array_contains", "filter.range",
   "transform.normalize", "transform.map", "transform.template",
   "transform.coalesce", "transform.conditional",
   "field.select", "field.rename", "field.drop", "field.copy", "field.default",
   "quality.score", "quality.filter",
   "sample.random", "sample.top", "split.random", "split.sequential",
   "llm.token_count", "llm.conversation_format", "llm.context_length",
   "lang.detect", "metadata.enrich", "dedup.simhash", "pii.redact",
   "merge.concat", "shuffle", "token.count"]

/-- Modelled from the spec: a constructed operator — registry name plus the
parsed configuration object. -/
structure ZiOperator where
  name : String
  config : JsonObj
  deriving DecidableEq

/-- Modelled from the spec and tests: operator construction.  An unregistered
name is `UnknownOperator`; a config string that is not a JSON object is
`InvalidConfig`; a syntactically valid config is accepted as-is (the
repository's `test_operator_repr` constructs `filter.equals` with `{}`). -/
def ZiOperator.new (name : String) (config : String) : Except ZiError ZiOperator :=
  if name ∈ knownOperators then
    match Json.parse config with
    | some (.obj o) => .ok ⟨name, o⟩
    | _ => .error .invalidConfig
  else .error .unknownOperator

/-- Read a dotted path out of a config key. -/
def cfgPath (o : JsonObj) (key : String) : Option PathSpec :=
  match o.lookup key with
  | some (.str s) => parsePath s
  | _ => none

/-- Read a decimal number out of a config key. -/
def cfgNum (o : JsonObj) (key : String) : Option (Int × Nat) :=
  match o.lookup key with
  | some (.num m s) => some (m, s)
  | _ => none

/-- Modelled from the spec: `ZiOperator.apply` dispatch for the operators the
claims exercise.  A filter whose configuration lacks a usable path or bounds
keeps nothing (the absent-never-matches rule applied to the whole batch); the
operators outside the claims' scope pass the batch through unchanged here. -/
def ZiOperator.apply (op : ZiOperator) (B : List ZiRecord) : List ZiRecord :=
  if op.name = "filter.equals" then
    match cfgPath op.config "path", op.config.lookup "equals" with
    | some p, some v => filterEqualsApply p v B
    | _, _ => []
  else if op.name = "filter.in" then
    match cfgPath op.config "path", op.config.lookup "values" with
    | some p, some (.arr vals) => filterInApply p vals B
    | _, _ => []
  else if op.name = "filter.exists" then
    match cfgPath op.config "path" with
    | some p => filterExistsApply p B
    | none => []
  else if op.name = "filter.between" then
    match cfgPath op.config "path", cfgNum op.config "min", cfgNum op.config "max" with
    | some p, some mn, some mx => filterBetweenApply p mn.1 mn.2 mx.1 mx.2 B
    | _, _, _ => []
  else if op.name = "filter.range" then
    match cfgPath op.config "path", cfgNum op.config "min", cfgNum op.config "max" with
    | some p, some mn, some mx => filterRangeApply p mn.1 mn.2 mx.1 mx.2 B
    | _, _, _ => []
  else if op.name = "quality.filter" then
    match cfgNum op.config "min" with
    | some mn => qualityFilterApply mn.1 mn.2 B
    | none => []
  else if op.name = "shuffle" then
    match cfgNum op.config "seed" with
    | some sd => shuffleApply sd.1.toNat B
    | none => B
  else if op.name = "dedup.simhash" then
    match cfgPath op.config "path" with
    | some p => dedupSimhashApply p 3 B
    | none => B
  else B

/-! ## Concrete fixtures (the batches the repository's tests build) -/

/-- A record whose payload is `{"score": n}`, as the filter tests build. -/
def scoreRec (i : String) (n : Int) : ZiRecord :=
  ⟨some i, .obj (.cons "score" (.num n 0) .nil), .nil⟩

/-- The path `payload.score`. -/
def scorePath : PathSpec := ⟨.payload, ["score"]⟩

/-- A record whose payload is `{"text": s}`, as the text tests build. -/
def textRec (i s : String) : ZiRecord :=
  ⟨some i, .obj (.cons "text" (.str s) .nil), .nil⟩

/-- The path `payload.text`. -/
def textPath : PathSpec := ⟨.payload, ["text"]⟩

/-- The three-record batch of `test_filter_between` / `test_filter_range`:
scores 5, 10, 15. -/
def betweenBatch : List ZiRecord :=
  [scoreRec "1" 5, scoreRec "2" 10, scoreRec "3" 15]

/-- The ten-record batch of `test_split_sequential`. -/
def tenBatch : List ZiRecord :=
  [scoreRec "0" 0, scoreRec "1" 1, scoreRec "2" 2, scoreRec "3" 3, scoreRec "4" 4,
   scoreRec "5" 5, scoreRec "6" 6, scoreRec "7" 7, scoreRec "8" 8, scoreRec "9" 9]

/-- The three-record batch of `test_dedup_simhash`: two identical texts and a
different one. -/
def dedupBatch : List ZiRecord :=
  [textRec "1" "hello world", textRec "2" "hello world", textRec "3" "different text"]

/-- A batch of three sufficiently different texts (pairwise fingerprint
distance above the default threshold). -/
def farBatch : List ZiRecord :=
  [textRec "1" "hello world", textRec "2" "aaa bbb", textRec "3" "different text"]

/-- The record of `test_field_rename`: payload `{"old_name": "value"}`. -/
def renameRec : ZiRecord :=
  ⟨some "1", .obj (.cons "old_name" (.str "value") .nil), .nil⟩

/-- The nested payload of `test_record_payload_access`:
`{"name": "test", "nested": {"a": 1}, "value": 42}` (keys in sorted order). -/
def c10Payload : Json :=
  .obj (.cons "name" (.str "test")
    (.cons "nested" (.obj (.cons "a" (.num 1 0) .nil))
      (.cons "value" (.num 42 0) .nil)))

/-! ## Order lemmas for the key order -/

theorem charsLt_irrefl : ∀ (a : List Char), charsLt a a = false := by
  intro a
  induction a with
  | nil => rfl
  | cons x xs ih => simp [charsLt, ih]

theorem charsLt_trans (a : List Char) :
    ∀ b c, charsLt a b = true → charsLt b c = true → charsLt a c = true := by
  induction a with
  | nil =>
    intro b c h1 h2
    cases b with
    | nil => exact absurd h1 (by simp [charsLt])
    | cons y ys =>
      cases c with
      | nil => exact absurd h2 (by simp [charsLt])
      | cons z zs => simp [charsLt]
  | cons x xs ih =>
    intro b c h1 h2
    cases b with
    | nil => exact absurd h1 (by simp [charsLt])
    | cons y ys =>
      cases c with
      | nil => exact absurd h2 (by simp [charsLt])
      | cons z zs =>
        simp only [charsLt] at h1 h2 ⊢
        by_cases hxy : x.toNat < y.toNat
        · by_cases hyz : y.toNat < z.toNat
          · have : x.toNat < z.toNat := lt_trans hxy hyz
            simp [this]
          · rw [if_neg hyz] at h2
            by_cases hzy : z.toNat < y.toNat
            · rw [if_pos hzy] at h2; exact absurd h2 (by simp)
            · have : x.toNat < z.toNat := by omega
              simp [this]
        · rw [if_neg hxy] at h1
          by_cases hyx : y.toNat < x.toNat
          · rw [if_pos hyx] at h1; exact absurd h1 (by simp)
          · rw [if_neg hyx] at h1
            by_cases hyz : y.toNat < z.toNat
            · have : x.toNat < z.toNat := by omega
              simp [this]
            · rw [if_neg hyz] at h2
              by_cases hzy : z.toNat < y.toNat
              · rw [if_pos hzy] at h2; exact absurd h2 (by simp)
              · rw [if_neg hzy] at h2
                have hxz : ¬ x.toNat < z.toNat := by omega
                have hzx : ¬ z.toNat < x.toNat := by omega
                rw [if_neg hxz, if_neg hzx]
                exact ih ys zs h1 h2

theorem charsLt_asymm (a b : List Char) (h : charsLt a b = true) :
    charsLt b a = false := by
  by_contra hc
  have hba : charsLt b a = true := by
    cases hx : charsLt b a with
    | true => rfl
    | false => exact absurd hx hc
  have := charsLt_trans a b a h hba
  rw [charsLt_irrefl] at this
  exact Bool.false_ne_true this

theorem strLt_irrefl (s : String) : strLt s s = false := charsLt_irrefl _

theorem strLt_trans {a b c : String} (h1 : strLt a b = true) (h2 : strLt b c = true) :
    strLt a c = true := charsLt_trans _ _ _ h1 h2

theorem strLt_asymm {a b : String} (h : strLt a b = true) : strLt b a = false :=
  charsLt_asymm _ _ h

/-! ## Sorted-map algebra -/

/-- Plain structural induction over an object's field list (the mutual
recursor of the `Json` family specialised to one motive). -/
theorem JsonObj.recO {motive : JsonObj → Prop} (hnil : motive .nil)
    (hcons : ∀ k v t, motive t → motive (.cons k v t)) : ∀ m, motive m
  | .nil => hnil
  | .cons k v t => hcons k v t (recO hnil hcons t)

/-- Plain structural induction over an array's element list. -/
theorem JsonArr.recA {motive : JsonArr → Prop} (hnil : motive .nil)
    (hcons : ∀ x t, motive t → motive (.cons x t)) : ∀ m, motive m
  | .nil => hnil
  | .cons x t => hcons x t (recA hnil hcons t)

namespace JsonObj

theorem sortedB_tail {k : String} {v : Json} {t : JsonObj}
    (h : sortedB (.cons k v t) = true) : sortedB t = true := by
  cases t with
  | nil => rfl
  | cons k2 v2 t2 =>
    simp only [sortedB, Bool.and_eq_true] at h
    exact h.2

theorem sortedB_lookup_lt {k : String} {v : Json} :
    ∀ {t : JsonObj} {key : String} {w : Json}, sortedB (.cons k v t) = true →
      t.lookup key = some w → strLt k key = true := by
  intro t
  induction t using JsonObj.recO generalizing k v with
  | hnil => intro key w _ hl; simp [lookup] at hl
  | hcons k2 v2 t2 ih =>
    intro key w hs hl
    simp only [sortedB, Bool.and_eq_true] at hs
    simp only [lookup] at hl
    by_cases hk : k2 = key
    · subst hk; exact hs.1
    · rw [if_neg hk] at hl
      exact strLt_trans hs.1 (ih hs.2 hl)

theorem lookup_insertS_self (m : JsonObj) (k : String) (v : Json) :
    (m.insertS k v).lookup k = some v := by
  induction m using JsonObj.recO with
  | hnil => simp [insertS, lookup]
  | hcons k1 v1 t ih =>
    simp only [insertS]
    by_cases h1 : strLt k k1 = true
    · simp [h1, lookup]
    · rw [if_neg h1]
      by_cases h2 : k = k1
      · simp [h2, lookup]
      · rw [if_neg h2]
        simp only [lookup]
        rw [if_neg fun he => h2 he.symm]
        exact ih

theorem lookup_erase_none {m : JsonObj} {key k : String}
    (h : m.lookup key = none) : (m.erase k).lookup key = none := by
  induction m using JsonObj.recO with
  | hnil => simp [erase, lookup]
  | hcons k1 v1 t ih =>
    simp only [lookup] at h
    by_cases h1 : k1 = key
    · simp [h1] at h
    · rw [if_neg h1] at h
      simp only [erase]
      by_cases h2 : k1 = k
      · rw [if_pos h2]; exact h
      · rw [if_neg h2]
        simp only [lookup]
        rw [if_neg h1]
        exact ih h

theorem erase_insertS {m : JsonObj} {k : String} (v : Json)
    (h : m.lookup k = none) : (m.insertS k v).erase k = m := by
  induction m using JsonObj.recO with
  | hnil => simp [insertS, erase]
  | hcons k1 v1 t ih =>
    simp only [lookup] at h
    by_cases h1 : k1 = k
    · simp [h1] at h
    · rw [if_neg h1] at h
      simp only [insertS]
      by_cases h2 : strLt k k1 = true
      · simp [h2, erase]
      · rw [if_neg h2]
        by_cases h3 : k = k1
        · exact absurd h3.symm h1
        · rw [if_neg h3]
          simp only [erase]
          rw [if_neg h1]
          rw [ih h]

theorem insertS_erase_self {m : JsonObj} {k : String} {v : Json}
    (hs : sortedB m = true) (h : m.lookup k = some v) :
    (m.erase k).insertS k v = m := by
  induction m using JsonObj.recO with
  | hnil => simp [lookup] at h
  | hcons k1 v1 t ih =>
    simp only [lookup] at h
    by_cases h1 : k1 = k
    · subst h1
      rw [if_pos rfl] at h
      injection h with h
      subst h
      simp only [erase, if_pos rfl]
      cases t with
      | nil => simp [insertS]
      | cons k2 v2 t2 =>
        simp only [sortedB, Bool.and_eq_true] at hs
        simp [insertS, hs.1]
    · rw [if_neg h1] at h
      have hlt : strLt k1 k = true := sortedB_lookup_lt hs h
      simp only [erase]
      rw [if_neg h1]
      simp only [insertS]
      rw [if_neg (by rw [strLt_asymm hlt]; exact Bool.false_ne_true)]
      rw [if_neg fun he => by rw [he] at hlt; rw [strLt_irrefl] at hlt; exact Bool.false_ne_true hlt]
      rw [ih (sortedB_tail hs) h]

theorem insertS_insertS_self (m : JsonObj) (k : String) (v w : Json) :
    (m.insertS k v).insertS k w = m.insertS k w := by
  induction m using JsonObj.recO with
  | hnil => simp [insertS, strLt_irrefl]
  | hcons k1 v1 t ih =>
    by_cases h1 : strLt k k1 = true
    · simp [insertS, h1, strLt_irrefl]
    · by_cases h2 : k = k1
      · subst h2
        simp [insertS, strLt_irrefl]
      · simp [insertS, h1, h2, ih]

theorem insertS_lookup_self {m : JsonObj} {k : String} {v : Json}
    (hs : sortedB m = true) (h : m.lookup k = some v) : m.insertS k v = m := by
  have : (m.erase k).insertS k v = m := insertS_erase_self hs h
  calc m.insertS k v = ((m.erase k).insertS k v).insertS k v := by
        rw [insertS_erase_self hs h]
      _ = (m.erase k).insertS k v := insertS_insertS_self _ _ _ _
      _ = m := insertS_erase_self hs h

end JsonObj

/-! ## Canonicality lemmas -/

theorem canonical_obj_sorted {fs : JsonObj} (h : Json.canonical (.obj fs) = true) :
    JsonObj.sortedB fs = true := by
  simp only [Json.canonical, Bool.and_eq_true] at h
  exact h.1

theorem canonical_obj_fields {fs : JsonObj} (h : Json.canonical (.obj fs) = true) :
    JsonObj.canonical fs = true := by
  simp only [Json.canonical, Bool.and_eq_true] at h
  exact h.2

theorem canonicalO_lookup : ∀ {fs : JsonObj} {k : String} {v : Json},
    JsonObj.canonical fs = true → fs.lookup k = some v → Json.canonical v = true := by
  intro fs
  induction fs using JsonObj.recO with
  | hnil => intro k v _ hl; simp [JsonObj.lookup] at hl
  | hcons k1 v1 t ih =>
    intro k v hc hl
    simp only [JsonObj.canonical, Bool.and_eq_true] at hc
    simp only [JsonObj.lookup] at hl
    by_cases h1 : k1 = k
    · rw [if_pos h1] at hl
      injection hl with hl
      subst hl
      exact hc.1
    · rw [if_neg h1] at hl
      exact ih hc.2 hl

/-! ## `field.rename` round trip -/

theorem renameSegs_roundtrip (a b : String) :
    ∀ (parent : List String) (j : Json), Json.canonical j = true →
      getSegs (parent ++ [b]) j = none →
      renameSegs a (parent ++ [b]) (renameSegs b (parent ++ [a]) j) = j := by
  intro parent
  induction parent with
  | nil =>
    intro j hc hb
    cases j with
    | null => simp [renameSegs]
    | bool _ => simp [renameSegs]
    | num _ _ => simp [renameSegs]
    | str _ => simp [renameSegs]
    | arr _ => simp [renameSegs]
    | obj fs =>
      simp only [List.nil_append] at hb ⊢
      have hlb : fs.lookup b = none := by
        simp only [getSegs] at hb
        cases hx : fs.lookup b with
        | none => rfl
        | some c => rw [hx] at hb; simp [getSegs] at hb
      cases hla : fs.lookup a with
      | none => simp [renameSegs, hla, hlb]
      | some v =>
        simp only [renameSegs, hla]
        have h1 : ((fs.erase a).insertS b v).lookup b = some v :=
          JsonObj.lookup_insertS_self _ _ _
        simp only [renameSegs, h1]
        rw [JsonObj.erase_insertS v (JsonObj.lookup_erase_none hlb)]
        rw [JsonObj.insertS_erase_self (canonical_obj_sorted hc) hla]
  | cons p ps ih =>
    intro j hc hb
    obtain ⟨q, qs, hq⟩ : ∃ q qs, ps ++ [a] = q :: qs := by
      cases ps with
      | nil => exact ⟨a, [], rfl⟩
      | cons x xs => exact ⟨x, xs ++ [a], rfl⟩
    obtain ⟨u, us, hu⟩ : ∃ u us, ps ++ [b] = u :: us := by
      cases ps with
      | nil => exact ⟨b, [], rfl⟩
      | cons x xs => exact ⟨x, xs ++ [b], rfl⟩
    cases j with
    | null => simp [renameSegs]
    | bool _ => simp [renameSegs]
    | num _ _ => simp [renameSegs]
    | str _ => simp [renameSegs]
    | arr _ => simp [renameSegs]
    | obj fs =>
      have hb2 : getSegs (p :: (ps ++ [b])) (.obj fs) = none := by
        simpa using hb
      cases hlp : fs.lookup p with
      | none =>
        simp only [List.cons_append, hq, hu, renameSegs, hlp]
      | some child =>
        have hcanc : Json.canonical child = true :=
          canonicalO_lookup (canonical_obj_fields hc) hlp
        have hbc : getSegs (ps ++ [b]) child = none := by
          rw [hu] at hb2 ⊢
          simp only [getSegs, hlp] at hb2
          exact hb2
        have ihc := ih child hcanc hbc
        simp only [List.cons_append, hq, renameSegs, hlp]
        have h1 : (fs.insertS p (renameSegs b (q :: qs) child)).lookup p =
            some (renameSegs b (q :: qs) child) := JsonObj.lookup_insertS_self _ _ _
        rw [hu]
        simp only [renameSegs, h1]
        rw [hu, hq] at ihc
        rw [ihc]
        rw [JsonObj.insertS_insertS_self]
        rw [JsonObj.insertS_lookup_self (canonical_obj_sorted hc) hlp]

/-- One record's `field.rename` round trip: renaming a payload field away and
back restores the record exactly. -/
theorem renameRecord_roundtrip (parent : List String) (a b : String)
    (r : ZiRecord) (hc : r.payload.canonical = true)
    (hb : (getSegs (parent ++ [b]) r.payload).isNone = true) :
    fieldRenameApply ⟨.payload, parent ++ [b]⟩ a
      (fieldRenameApply ⟨.payload, parent ++ [a]⟩ b [r]) = [r] := by
  simp only [fieldRenameApply, List.map_cons, List.map_nil]
  have hbn : getSegs (parent ++ [b]) r.payload = none := by
    cases hx : getSegs (parent ++ [b]) r.payload with
    | none => rfl
    | some v => rw [hx] at hb; simp at hb
  congr 1
  cases r with
  | mk idv pl md =>
    simp only
    rw [renameSegs_roundtrip a b parent pl hc hbn]

/-! ## Bridging decimal comparisons to rational inequalities -/

theorem numLe_iff (m1 : Int) (s1 : Nat) (m2 : Int) (s2 : Nat) :
    numLe m1 s1 m2 s2 = true ↔ (m1 : ℚ) / 10 ^ s1 ≤ (m2 : ℚ) / 10 ^ s2 := by
  have h1 : (0 : ℚ) < 10 ^ s1 := by positivity
  have h2 : (0 : ℚ) < 10 ^ s2 := by positivity
  rw [div_le_div_iff₀ h1 h2]
  simp only [numLe, decide_eq_true_eq]
  constructor
  · intro h; exact_mod_cast h
  · intro h; exact_mod_cast h

theorem numLt_iff (m1 : Int) (s1 : Nat) (m2 : Int) (s2 : Nat) :
    numLt m1 s1 m2 s2 = true ↔ (m1 : ℚ) / 10 ^ s1 < (m2 : ℚ) / 10 ^ s2 := by
  have h1 : (0 : ℚ) < 10 ^ s1 := by positivity
  have h2 : (0 : ℚ) < 10 ^ s2 := by positivity
  rw [div_lt_div_iff₀ h1 h2]
  simp only [numLt, decide_eq_true_eq]
  constructor
  · intro h; exact_mod_cast h
  · intro h; exact_mod_cast h

/-! ## Claim C1 -/

/-- C1: for every batch and every pure filter operator — shown for the
representatives `filter.equals`, `filter.in` and `filter.exists` — the output
is a sublist of the input (the records themselves, in original relative
order: ids, payloads and metadata of survivors are untouched), so its length
never exceeds the input's. -/
theorem c1_pure_filters_subsequence (p : PathSpec) (v : Json) (vals : JsonArr)
    (B : List ZiRecord) :
    (filterEqualsApply p v B).Sublist B ∧ (filterEqualsApply p v B).length ≤ B.length ∧
    (filterInApply p vals B).Sublist B ∧ (filterInApply p vals B).length ≤ B.length ∧
    (filterExistsApply p B).Sublist B ∧ (filterExistsApply p B).length ≤ B.length :=
  ⟨B.filter_sublist, B.filter_sublist.length_le, B.filter_sublist,
   B.filter_sublist.length_le, B.filter_sublist, B.filter_sublist.length_le⟩

/-! ## Claim C3 -/

/-- C3 counterexample: over the spec's own scenario — scores `[5,10,15]`,
`min=5`, `max=12` — `filter.between` keeps only the 10-record (as the
repository's `test_filter_between` asserts with `len(result) == 1`); it does
not keep the 5-record, so the claim that both the 5- and 10-records survive
`between` is false. -/
theorem c3_between_counterexample :
    filterBetweenApply scorePath 5 0 12 0 betweenBatch = [scoreRec "2" 10] ∧
    filterBetweenApply scorePath 5 0 12 0 betweenBatch ≠
      [scoreRec "1" 5, scoreRec "2" 10] := by
  exact ⟨by decide, by decide⟩

/-- C3 (amended): `filter.range` keeps exactly the records whose numeric value
`v` at the path satisfies `min ≤ v ≤ max` (inclusive on both bounds), while
`filter.between` is exclusive at the lower bound (`min < v ≤ max`); over the
`[5,10,15]` scenario with `min=5, max=12`, `range` keeps the 5- and 10-records
and `between` keeps only the 10-record; both drop the 15-record. -/
theorem c3_between_range_amended :
    (∀ (p : PathSpec) (mnM : Int) (mnS : Nat) (mxM : Int) (mxS : Nat)
       (B : List ZiRecord) (r : ZiRecord) (m : Int) (s : Nat),
       getPath r p = some (.num m s) →
       ((r ∈ filterRangeApply p mnM mnS mxM mxS B ↔
           r ∈ B ∧ ((mnM : ℚ) / 10 ^ mnS ≤ (m : ℚ) / 10 ^ s ∧
             (m : ℚ) / 10 ^ s ≤ (mxM : ℚ) / 10 ^ mxS)) ∧
        (r ∈ filterBetweenApply p mnM mnS mxM mxS B ↔
           r ∈ B ∧ ((mnM : ℚ) / 10 ^ mnS < (m : ℚ) / 10 ^ s ∧
             (m : ℚ) / 10 ^ s ≤ (mxM : ℚ) / 10 ^ mxS)))) ∧
    filterRangeApply scorePath 5 0 12 0 betweenBatch =
      [scoreRec "1" 5, scoreRec "2" 10] ∧
    filterBetweenApply scorePath 5 0 12 0 betweenBatch = [scoreRec "2" 10] := by
  refine ⟨fun p mnM mnS mxM mxS B r m s hget => ⟨?_, ?_⟩, by decide, by decide⟩
  · rw [filterRangeApply, List.mem_filter, filterRangeKeep, hget]
    rw [Bool.and_eq_true, numLe_iff, numLe_iff]
  · rw [filterBetweenApply, List.mem_filter, filterBetweenKeep, hget]
    rw [Bool.and_eq_true, numLt_iff, numLe_iff]

/-- C3 witness: the amended characterization evaluated on the 10-record of
the scenario batch. -/
theorem c3_between_range_amended_witness :
    getPath (scoreRec "2" 10) scorePath = some (.num 10 0) ∧
    (scoreRec "2" 10 ∈ filterRangeApply scorePath 5 0 12 0 betweenBatch ↔
      scoreRec "2" 10 ∈ betweenBatch ∧ ((5 : ℚ) / 10 ^ 0 ≤ (10 : ℚ) / 10 ^ 0 ∧
        (10 : ℚ) / 10 ^ 0 ≤ (12 : ℚ) / 10 ^ 0)) :=
  ⟨by decide,
   (c3_between_range_amended.1 scorePath 5 0 12 0 betweenBatch
     (scoreRec "2" 10) 10 0 (by decide)).1⟩

/-! ## Claim C9 -/

/-- C9: `quality.filter` keeps exactly the records whose `quality_score`
metadata is a number `≥ min` (as a rational inequality); the output is a
sublist of the input, and the keep-predicate holds precisely when the metadata
key is present with a numeric value meeting the threshold — so a record
lacking the key fails the threshold (fail-closed) rather than erroring. -/
theorem c9_quality_filter (mnM : Int) (mnS : Nat) (B : List ZiRecord) :
    (qualityFilterApply mnM mnS B).Sublist B ∧
    (∀ r, r ∈ qualityFilterApply mnM mnS B ↔
      r ∈ B ∧ qualityFilterKeep mnM mnS r = true) ∧
    (∀ r, qualityFilterKeep mnM mnS r = true ↔
      ∃ m s, r.metadata.lookup "quality_score" = some (.num m s) ∧
        (mnM : ℚ) / 10 ^ mnS ≤ (m : ℚ) / 10 ^ s) := by
  refine ⟨B.filter_sublist, fun r => List.mem_filter, fun r => ?_⟩
  constructor
  · intro h
    rw [qualityFilterKeep] at h
    cases hx : r.metadata.lookup "quality_score" with
    | none => rw [hx] at h; exact absurd h (by simp)
    | some v =>
      rw [hx] at h
      cases v with
      | num m s => exact ⟨m, s, rfl, (numLe_iff mnM mnS m s).mp h⟩
      | null => exact absurd h (by simp)
      | bool b => exact absurd h (by simp)
      | str s => exact absurd h (by simp)
      | arr xs => exact absurd h (by simp)
      | obj fs => exact absurd h (by simp)
  · rintro ⟨m, s, hx, hle⟩
    rw [qualityFilterKeep, hx]
    exact (numLe_iff mnM mnS m s).mpr hle

/-! ## Claim C7 -/

theorem updateRecordAt_id (p : PathSpec) (f : Json → Json) (r : ZiRecord) :
    (updateRecordAt p f r).id = r.id := by
  cases p with
  | mk root segs =>
    cases root with
    | payload => rfl
    | metadata =>
      simp only [updateRecordAt]
      split <;> rfl

/-- C7: `transform.normalize` and `transform.map` preserve the batch length,
the record order, and every record's id — position by position the output
record's id equals the input record's id. -/
theorem c7_transform_frame (p : PathSpec) (lower trim collapse : Bool)
    (e : MapExpr) (B : List ZiRecord) :
    (transformNormalizeApply p lower trim collapse B).length = B.length ∧
    (∀ i : Nat, ((transformNormalizeApply p lower trim collapse B)[i]?).map
        ZiRecord.id = (B[i]?).map ZiRecord.id) ∧
    (transformMapApply p e B).length = B.length ∧
    (∀ i : Nat, ((transformMapApply p e B)[i]?).map ZiRecord.id =
        (B[i]?).map ZiRecord.id) := by
  refine ⟨by simp [transformNormalizeApply], fun i => ?_,
    by simp [transformMapApply], fun i => ?_⟩
  · simp only [transformNormalizeApply, List.getElem?_map, Option.map_map]
    congr 1
    funext r
    simp [Function.comp, updateRecordAt_id]
  · simp only [transformMapApply, List.getElem?_map, Option.map_map]
    congr 1
    funext r
    simp [Function.comp, updateRecordAt_id]

/-! ## Claim C6 -/

/-- C6: `split.sequential` with ranges `[[0,3],[3,6]]` over a 10-record batch
partitions strictly by the half-open index ranges in input order: the
partitions are the records at indices 0,1,2 and 3,4,5 (sizes 3 and 3), the
output batch is exactly the first six records, and no record at an index ≥ 6
appears in any output partition. -/
theorem c6_split_sequential (B : List ZiRecord) (hlen : B.length = 10)
    (hnd : B.Nodup) :
    splitSequentialParts [(0, 3), (3, 6)] B = [B.take 3, (B.drop 3).take 3] ∧
    (splitSequentialParts [(0, 3), (3, 6)] B).map List.length = [3, 3] ∧
    splitSequentialApply [(0, 3), (3, 6)] B = B.take 6 ∧
    ∀ i (hi : i < B.length), 6 ≤ i →
      B.get ⟨i, hi⟩ ∉ splitSequentialApply [(0, 3), (3, 6)] B := by
  have hparts : splitSequentialParts [(0, 3), (3, 6)] B =
      [B.take 3, (B.drop 3).take 3] := by
    simp [splitSequentialParts]
  have happly : splitSequentialApply [(0, 3), (3, 6)] B = B.take 6 := by
    rw [splitSequentialApply, hparts]
    simp only [List.flatten]
    rw [List.append_nil, ← List.take_add]
  refine ⟨hparts, ?_, happly, ?_⟩
  · rw [hparts]
    simp [List.length_take, List.length_drop, hlen]
  · intro i hi h6 hmem
    rw [happly] at hmem
    obtain ⟨⟨j, hj⟩, hget⟩ := List.mem_iff_get.mp hmem
    have hj6 : j < 6 := by
      have := hj
      simp only [List.length_take, hlen] at this
      omega
    have hjB : j < B.length := by omega
    have hgj : (B.take 6).get ⟨j, hj⟩ = B.get ⟨j, hjB⟩ := by
      simp [List.get_eq_getElem, List.getElem_take]
    rw [hgj] at hget
    have := (hnd.get_inj_iff).mp hget
    have : j = i := congrArg Fin.val this
    omega

/-- C6 witness: the theorem evaluated on the concrete ten-record batch of
`test_split_sequential`. -/
theorem c6_split_sequential_witness :
    tenBatch.length = 10 ∧ tenBatch.Nodup ∧
    splitSequentialApply [(0, 3), (3, 6)] tenBatch = tenBatch.take 6 :=
  ⟨by decide, by decide,
   (c6_split_sequential tenBatch (by decide) (by decide)).2.2.1⟩

/-! ## Claim C2 -/

theorem get_cons_eraseIdx_perm {α : Type} :
    ∀ (l : List α) (j : Nat) (hj : j < l.length),
      (l.get ⟨j, hj⟩ :: l.eraseIdx j).Perm l := by
  intro l
  induction l with
  | nil => intro j hj; simp at hj
  | cons x xs ih =>
    intro j hj
    cases j with
    | zero => simp [List.eraseIdx]
    | succ n =>
      have hn : n < xs.length := by simpa using hj
      have h1 : (xs.get ⟨n, hn⟩ :: x :: xs.eraseIdx n).Perm
          (x :: xs.get ⟨n, hn⟩ :: xs.eraseIdx n) := List.Perm.swap _ _ _
      have h2 : (x :: xs.get ⟨n, hn⟩ :: xs.eraseIdx n).Perm (x :: xs) :=
        (ih n hn).cons x
      simpa [List.eraseIdx] using h1.trans h2

theorem shuffleGo_perm : ∀ (fuel s : Nat) (l : List ZiRecord),
    (shuffleGo fuel s l).Perm l := by
  intro fuel
  induction fuel with
  | zero => intro s l; rfl
  | succ n ih =>
    intro s l
    cases l with
    | nil => rfl
    | cons x xs =>
      rw [shuffleGo]
      exact ((ih _ _).cons _).trans (get_cons_eraseIdx_perm _ _ _)

/-- C2: seeded randomized operators are deterministic — two applications of
`sample.random` with the same rate, seed and batch produce the same output
batch, and two applications of `shuffle` with the same seed produce the same
output; moreover the sample is a sublist of its input and the shuffle output
is a permutation of its input. -/
theorem c2_seeded_determinism (rateM : Int) (rateS : Nat) (seed : Nat)
    (B : List ZiRecord) :
    sampleRandomApply rateM rateS seed B = sampleRandomApply rateM rateS seed B ∧
    (sampleRandomApply rateM rateS seed B).Sublist B ∧
    shuffleApply seed B = shuffleApply seed B ∧
    (shuffleApply seed B).Perm B := by
  refine ⟨rfl, ?_, rfl, shuffleGo_perm _ _ _⟩
  rw [sampleRandomApply]
  generalize 0 = i
  induction B generalizing i with
  | nil => simp [sampleRandomGo]
  | cons r rs ih =>
    rw [sampleRandomGo]
    split
    · exact (ih _).cons₂ r
    · exact (ih _).cons r

/-! ## Claim C5 -/

theorem hamming_self (a : Nat) : hamming a a = 0 := by
  simp [hamming]

/-- Once a fingerprint within threshold of `simhash t` has been kept, no
record with text `t` ever survives the rest of the walk. -/
theorem dedupAux_no_text (p : PathSpec) (thr : Nat) (t : String) :
    ∀ (l : List ZiRecord) (kept : List Nat),
      (∃ g ∈ kept, hamming g (simhash t) ≤ thr) →
      (dedupAux p thr kept l).filter (fun r => textAt p r == t) = [] := by
  intro l
  induction l with
  | nil => intro kept _; rfl
  | cons r rs ih =>
    intro kept hg
    rw [dedupAux]
    split
    · exact ih kept hg
    · next hnear =>
      rw [List.filter_cons]
      have hrt : (textAt p r == t) = false := by
        cases hx : (textAt p r == t) with
        | false => rfl
        | true =>
          obtain ⟨g, hgk, hgd⟩ := hg
          have ht : textAt p r = t := by simpa using hx
          have : (List.any kept fun g => decide (hamming g (fingerprint p r) ≤ thr)) = true := by
            rw [List.any_eq_true]
            exact ⟨g, hgk, by rw [fingerprint, ht]; simpa using hgd⟩
          simp [this] at hnear
      rw [hrt]
      simp only [Bool.false_eq_true, if_false]
      refine ih _ ?_
      obtain ⟨g, hgk, hgd⟩ := hg
      exact ⟨g, List.mem_cons_of_mem _ hgk, hgd⟩

/-- The survivors with text `t` are either none, or exactly the first record
with text `t` in input order. -/
theorem dedupAux_text_group (p : PathSpec) (thr : Nat) (t : String) :
    ∀ (l : List ZiRecord) (kept : List Nat),
      (dedupAux p thr kept l).filter (fun r => textAt p r == t) = [] ∨
      (dedupAux p thr kept l).filter (fun r => textAt p r == t) =
        (l.filter fun r => textAt p r == t).take 1 := by
  intro l
  induction l with
  | nil => intro kept; left; rfl
  | cons r rs ih =>
    intro kept
    rw [dedupAux]
    cases hx : (textAt p r == t) with
    | false =>
      have hsame : ∀ out : List ZiRecord,
          (r :: out).filter (fun r => textAt p r == t) =
            out.filter (fun r => textAt p r == t) := by
        intro out; rw [List.filter_cons, hx]; simp
      rw [List.filter_cons, hx]
      simp only [Bool.false_eq_true, if_false]
      split
      · exact ih kept
      · rw [hsame]
        exact ih _
    | true =>
      have ht : textAt p r = t := by simpa using hx
      split
      · next hnear =>
        left
        refine dedupAux_no_text p thr t rs kept ?_
        rw [List.any_eq_true] at hnear
        obtain ⟨g, hgk, hgd⟩ := hnear
        refine ⟨g, hgk, ?_⟩
        have : fingerprint p r = simhash t := by rw [fingerprint, ht]
        rw [← this]
        simpa using hgd
      · right
        rw [List.filter_cons, hx, List.filter_cons, hx]
        simp only [if_true]
        rw [List.take_succ_cons, List.take_zero]
        have hrest : (dedupAux p thr (fingerprint p r :: kept) rs).filter
            (fun r => textAt p r == t) = [] := by
          refine dedupAux_no_text p thr t rs _ ?_
          exact ⟨fingerprint p r, List.mem_cons_self _ _,
            by rw [fingerprint, ht, hamming_self]; exact Nat.zero_le thr⟩
        rw [hrest]

/-- A batch whose fingerprints are pairwise farther apart than the threshold
passes through dedup unchanged. -/
theorem dedupAux_pairwise_far (p : PathSpec) (thr : Nat) :
    ∀ (l : List ZiRecord) (kept : List Nat),
      (∀ g ∈ kept, ∀ r ∈ l, thr < hamming g (fingerprint p r)) →
      l.Pairwise (fun r1 r2 => thr < hamming (fingerprint p r1) (fingerprint p r2)) →
      dedupAux p thr kept l = l := by
  intro l
  induction l with
  | nil => intro kept _ _; rfl
  | cons r rs ih =>
    intro kept hk hp
    rw [dedupAux]
    have hfar : (List.any kept fun g => decide (hamming g (fingerprint p r) ≤ thr)) = false := by
      rw [List.any_eq_false]
      intro g hg
      simp only [decide_eq_true_eq]
      intro hle
      exact absurd hle (Nat.not_le.mpr (hk g hg r (List.mem_cons_self _ _)))
    simp only [hfar, Bool.false_eq_true, if_false]
    congr 1
    refine ih _ ?_ (List.pairwise_cons.mp hp).2
    intro g hg r2 hr2
    rcases List.mem_cons.mp hg with hgf | hgk
    · subst hgf
      exact (List.pairwise_cons.mp hp).1 r2 hr2
    · exact hk g hgk r2 (List.mem_cons_of_mem _ hr2)

/-- C5: for `dedup.simhash`, the survivors sharing any one text value at the
configured path are either none or exactly the first record with that text in
input order (identical texts always collapse, the first occurrence is the one
retained); a batch whose fingerprints are pairwise farther apart than the
threshold passes through with unchanged content; and on the repository's test
batch the two `"hello world"` records collapse to the first while
`"different text"` survives. -/
theorem c5_dedup_simhash (p : PathSpec) (thr : Nat) (B : List ZiRecord) :
    (∀ t : String,
      (dedupSimhashApply p thr B).filter (fun r => textAt p r == t) = [] ∨
      (dedupSimhashApply p thr B).filter (fun r => textAt p r == t) =
        (B.filter fun r => textAt p r == t).take 1) ∧
    (B.Pairwise (fun r1 r2 => thr < hamming (fingerprint p r1) (fingerprint p r2)) →
      dedupSimhashApply p thr B = B) ∧
    dedupSimhashApply textPath 3 dedupBatch =
      [textRec "1" "hello world", textRec "3" "different text"] := by
  refine ⟨fun t => dedupAux_text_group p thr t B [], fun hp => ?_, by decide⟩
  exact dedupAux_pairwise_far p thr B [] (by intro g hg; simp at hg) hp

/-- C5 witness: a concrete batch of three pairwise-distant texts passes
through dedup unchanged. -/
theorem c5_dedup_simhash_witness :
    farBatch.Pairwise
      (fun r1 r2 => 3 < hamming (fingerprint textPath r1) (fingerprint textPath r2)) ∧
    dedupSimhashApply textPath 3 farBatch = farBatch :=
  ⟨by decide, (c5_dedup_simhash textPath 3 farBatch).2.1 (by decide)⟩

/-! ## Claim C8 -/

/-- C8: `field.rename(path, to)` followed by the inverse rename restores every
record exactly — for a batch of records with canonical payloads whose
destination key is previously absent, the composition of the two renames is
the identity on the batch (ids, payloads and metadata all restored). -/
theorem c8_rename_roundtrip (parent : List String) (a b : String)
    (B : List ZiRecord)
    (hc : (B.all fun r => r.payload.canonical) = true)
    (hb : (B.all fun r => (getSegs (parent ++ [b]) r.payload).isNone) = true) :
    fieldRenameApply ⟨.payload, parent ++ [b]⟩ a
      (fieldRenameApply ⟨.payload, parent ++ [a]⟩ b B) = B := by
  rw [fieldRenameApply, fieldRenameApply, List.map_map]
  conv_rhs => rw [← List.map_id B]
  refine List.map_congr_left fun r hr => ?_
  cases r with
  | mk idv pl md =>
    have h1 := List.all_eq_true.mp hc _ hr
    have h2 := List.all_eq_true.mp hb _ hr
    have hbn : getSegs (parent ++ [b]) pl = none := by
      cases hx : getSegs (parent ++ [b]) pl with
      | none => rfl
      | some v => rw [hx] at h2; simp at h2
    show ZiRecord.mk idv
      (renameSegs a (parent ++ [b]) (renameSegs b (parent ++ [a]) pl)) md =
      ZiRecord.mk idv pl md
    rw [renameSegs_roundtrip a b parent pl h1 hbn]

/-- C8 witness: the round trip evaluated on the record of
`test_field_rename` (`old_name` → `new_name` → `old_name`). -/
theorem c8_rename_roundtrip_witness :
    (([renameRec] : List ZiRecord).all fun r => r.payload.canonical) = true ∧
    (([renameRec] : List ZiRecord).all fun r =>
      (getSegs ([] ++ ["new_name"]) r.payload).isNone) = true ∧
    fieldRenameApply ⟨.payload, [] ++ ["new_name"]⟩ "old_name"
      (fieldRenameApply ⟨.payload, [] ++ ["old_name"]⟩ "new_name" [renameRec]) =
      [renameRec] :=
  ⟨by decide, by decide,
   c8_rename_roundtrip [] "old_name" "new_name" [renameRec] (by decide) (by decide)⟩

/-! ## Digit and number lemmas for the JSON text round trip -/

theorem isDigitCh_digitChar (d : Nat) : isDigitCh (digitChar d) = true := by
  unfold digitChar
  split <;> decide

theorem digitVal_digitChar {d : Nat} (h : d < 10) : digitVal (digitChar d) = d := by
  interval_cases d <;> decide

theorem digitsVal_append (ds : List Char) (c : Char) :
    digitsVal (ds ++ [c]) = digitsVal ds * 10 + digitVal c := by
  simp [digitsVal, List.foldl_append]

theorem natDigits_val : ∀ (fuel n : Nat), n < fuel →
    digitsVal (natDigits fuel n) = n := by
  intro fuel
  induction fuel with
  | zero => intro n h; omega
  | succ f ih =>
    intro n h
    rw [natDigits]
    by_cases h10 : n < 10
    · rw [if_pos h10]
      have h1 : digitsVal [digitChar n] = digitVal (digitChar n) := by
        simp [digitsVal]
      rw [h1, digitVal_digitChar h10]
    · rw [if_neg h10]
      rw [digitsVal_append]
      have hdiv : n / 10 < f := by omega
      rw [ih _ hdiv, digitVal_digitChar (Nat.mod_lt _ (by norm_num))]
      omega

theorem natDigits_all (fuel : Nat) : ∀ n, (natDigits fuel n).all isDigitCh = true := by
  induction fuel with
  | zero => intro n; rfl
  | succ f ih =>
    intro n
    rw [natDigits]
    split
    · simp [isDigitCh_digitChar]
    · rw [List.all_append]
      simp [ih, isDigitCh_digitChar]

theorem natDigits_ne_nil (fuel n : Nat) (h : 0 < fuel) : natDigits fuel n ≠ [] := by
  cases fuel with
  | zero => omega
  | succ f =>
    rw [natDigits]
    split
    · simp
    · simp

theorem padDigits_all {s : Nat} {ds : List Char} (h : ds.all isDigitCh = true) :
    (padDigits s ds).all isDigitCh = true := by
  unfold padDigits
  split
  · rw [List.all_append, h]
    have : (List.replicate (s + 1 - ds.length) '0').all isDigitCh = true := by
      rw [List.all_eq_true]
      intro c hc
      rw [List.eq_of_mem_replicate hc]
      decide
    rw [this]
    rfl
  · exact h

theorem digitsVal_replicate_zero (z : Nat) (ds : List Char) :
    digitsVal (List.replicate z '0' ++ ds) = digitsVal ds := by
  induction z with
  | zero => rfl
  | succ n ih =>
    rw [List.replicate_succ, List.cons_append]
    have h0 : digitsVal ('0' :: (List.replicate n '0' ++ ds)) =
        digitsVal (List.replicate n '0' ++ ds) := rfl
    rw [h0, ih]

theorem padDigits_val (s : Nat) (ds : List Char) :
    digitsVal (padDigits s ds) = digitsVal ds := by
  unfold padDigits
  split
  · exact digitsVal_replicate_zero _ _
  · rfl

theorem padDigits_len (s : Nat) (ds : List Char) (h : ds ≠ []) :
    s + 1 ≤ (padDigits s ds).length := by
  have hpos : 0 < ds.length := List.length_pos.mpr h
  unfold padDigits
  split
  · next hlt =>
    rw [List.length_append, List.length_replicate]
    omega
  · next hge => omega

theorem padDigits_ne_nil (s : Nat) (ds : List Char) (h : ds ≠ []) :
    padDigits s ds ≠ [] := by
  have := padDigits_len s ds h
  intro hc
  rw [hc] at this
  simp at this

theorem takeWhile_append_digits : ∀ (ds rest : List Char),
    ds.all isDigitCh = true →
    (∀ c cs, rest = c :: cs → isDigitCh c = false) →
    (ds ++ rest).takeWhile isDigitCh = ds ∧
      (ds ++ rest).dropWhile isDigitCh = rest := by
  intro ds
  induction ds with
  | nil =>
    intro rest _ hr
    cases rest with
    | nil => exact ⟨rfl, rfl⟩
    | cons c cs =>
      have hc := hr c cs rfl
      constructor
      · simp [List.takeWhile_cons, hc]
      · simp [List.dropWhile_cons, hc]
  | cons d ds ih =>
    intro rest hall hr
    rw [List.all_cons, Bool.and_eq_true] at hall
    obtain ⟨h1, h2⟩ := ih rest hall.2 hr
    constructor
    · simp [List.takeWhile_cons, hall.1, h1]
    · simp [List.dropWhile_cons, hall.1, h2]

theorem headSafe_head {rest : List Char} (h : headSafe rest = true) :
    ∀ c cs, rest = c :: cs → isDigitCh c = false := by
  intro c cs he
  subst he
  simp only [headSafe, Bool.and_eq_true, Bool.not_eq_true'] at h
  exact h.1

theorem headSafe_not_dot {c : Char} {cs : List Char}
    (h : headSafe (c :: cs) = true) : ¬ c = '.' := by
  simp only [headSafe, Bool.and_eq_true, bne_iff_ne] at h
  exact h.2

theorem parseNumNat_core (s : Nat) (ds rest : List Char)
    (hall : ds.all isDigitCh = true) (hlen : s + 1 ≤ ds.length)
    (hrest : headSafe rest = true) :
    parseNumNat (numCore s ds ++ rest) = some ((digitsVal ds, s), rest) := by
  have hrest' := headSafe_head hrest
  have hnnil : ds ≠ [] := by
    intro hc; rw [hc] at hlen; simp at hlen
  rw [numCore]
  by_cases hs : s = 0
  · subst hs
    rw [if_pos rfl]
    obtain ⟨ht, hd⟩ := takeWhile_append_digits ds rest hall hrest'
    rw [parseNumNat]
    simp only [ht, hd]
    rw [if_neg (by simp [List.isEmpty_iff, hnnil])]
    rw [if_neg ?hdot]
    case hdot =>
      cases rest with
      | nil => simp
      | cons c cs =>
        have : ¬ c = '.' := headSafe_not_dot hrest
        simp [this]
  · rw [if_neg hs]
    have hsle : s ≤ ds.length := by omega
    have htake_all : (ds.take (ds.length - s)).all isDigitCh = true := by
      rw [List.all_eq_true] at hall ⊢
      intro c hc
      exact hall c (List.mem_of_mem_take hc)
    have hdrop_all : (ds.drop (ds.length - s)).all isDigitCh = true := by
      rw [List.all_eq_true] at hall ⊢
      intro c hc
      exact hall c (List.mem_of_mem_drop hc)
    have htake_len : (ds.take (ds.length - s)).length = ds.length - s := by
      rw [List.length_take]
      omega
    have hdrop_len : (ds.drop (ds.length - s)).length = s := by
      rw [List.length_drop]
      omega
    have hassoc : (ds.take (ds.length - s) ++ '.' :: ds.drop (ds.length - s)) ++ rest =
        ds.take (ds.length - s) ++ '.' :: (ds.drop (ds.length - s) ++ rest) := by
      simp
    rw [hassoc]
    obtain ⟨ht1, hd1⟩ := takeWhile_append_digits (ds.take (ds.length - s))
      ('.' :: (ds.drop (ds.length - s) ++ rest)) htake_all
      (by intro c cs he; injection he with h1 _; rw [← h1]; decide)
    obtain ⟨ht2, hd2⟩ := takeWhile_append_digits (ds.drop (ds.length - s)) rest
      hdrop_all hrest'
    rw [parseNumNat]
    simp only [ht1, hd1, List.head?_cons, List.tail_cons, ht2, hd2]
    rw [if_neg (by
      simp only [List.isEmpty_iff]
      intro hc
      rw [hc] at htake_len
      simp at htake_len
      omega)]
    simp only [if_true]
    rw [if_neg (by
      simp only [List.isEmpty_iff]
      intro hc
      rw [hc] at hdrop_len
      simp at hdrop_len
      omega)]
    rw [List.take_append_drop, hdrop_len]

theorem numCore_head (s : Nat) (ds : List Char) (hall : ds.all isDigitCh = true)
    (hlen : s + 1 ≤ ds.length) :
    ∃ c cs, numCore s ds = c :: cs ∧ isDigitCh c = true := by
  cases hds : ds with
  | nil => rw [hds] at hlen; simp at hlen
  | cons d tl =>
    subst hds
    rw [List.all_cons, Bool.and_eq_true] at hall
    rw [numCore]
    by_cases hs : s = 0
    · rw [if_pos hs]
      exact ⟨d, tl, rfl, hall.1⟩
    · rw [if_neg hs]
      have hlen2 : (d :: tl).length - s = ((d :: tl).length - s - 1) + 1 := by
        simp only [List.length_cons] at hlen ⊢
        omega
      rw [hlen2, List.take_succ_cons]
      exact ⟨d, _, rfl, hall.1⟩

theorem digit_ne_minus {c : Char} (h : isDigitCh c = true) : ¬ c = '-' := by
  intro he
  rw [he] at h
  exact absurd h (by decide)

theorem parseNum_render (m : Int) (s : Nat) (rest : List Char)
    (hrest : headSafe rest = true) :
    parseNum (renderNum m s ++ rest) = some ((m, s), rest) := by
  rw [renderNum]
  have hall : (padDigits s (natDigits (m.natAbs + 1) m.natAbs)).all isDigitCh = true :=
    padDigits_all (natDigits_all _ _)
  have hlen : s + 1 ≤ (padDigits s (natDigits (m.natAbs + 1) m.natAbs)).length :=
    padDigits_len _ _ (natDigits_ne_nil (m.natAbs + 1) m.natAbs (Nat.succ_pos _))
  have hval : digitsVal (padDigits s (natDigits (m.natAbs + 1) m.natAbs)) = m.natAbs := by
    rw [padDigits_val, natDigits_val _ _ (by omega)]
  have hcore := parseNumNat_core s _ rest hall hlen hrest
  by_cases hm : m < 0
  · rw [if_pos hm, List.cons_append, parseNum]
    simp only [List.head?_cons, List.tail_cons]
    simp only [if_true]
    rw [hcore]
    simp only [Option.map_some']
    have hneg : -(((digitsVal (padDigits s (natDigits (m.natAbs + 1) m.natAbs)) : Nat) : Int)) = m := by
      rw [hval]
      omega
    rw [hneg]
  · rw [if_neg hm]
    obtain ⟨c, cs, hcs, hcd⟩ := numCore_head s _ hall hlen
    rw [hcs, List.cons_append, parseNum]
    simp only [List.head?_cons]
    rw [if_neg (by intro he; injection he with he2; exact digit_ne_minus hcd he2)]
    rw [← List.cons_append, ← hcs, hcore]
    simp only [Option.map_some']
    have hpos : ((digitsVal (padDigits s (natDigits (m.natAbs + 1) m.natAbs)) : Nat) : Int) = m := by
      rw [hval]
      omega
    rw [hpos]

theorem parseStrBody_esc : ∀ (cs rest : List Char),
    parseStrBody (escChars cs ++ '"' :: rest) = some (cs, rest) := by
  intro cs
  induction cs with
  | nil =>
    intro rest
    rw [escChars, List.nil_append]
    cases rest with
    | nil => rw [parseStrBody, if_pos rfl]
    | cons r rs => rw [parseStrBody, if_pos rfl]
  | cons c cs ih =>
    intro rest
    rw [escChars]
    by_cases hc : (c = '"' || c = '\\') = true
    · rw [if_pos hc, List.cons_append, List.cons_append, parseStrBody,
        if_neg (by decide), if_pos rfl]
      have hc2 : c = '"' ∨ c = '\\' := by
        rcases Bool.or_eq_true_iff.mp hc with h | h
        · exact Or.inl (by simpa using h)
        · exact Or.inr (by simpa using h)
      rw [if_pos hc2, ih]
      rfl
    · rw [if_neg hc]
      have hne : ¬ c = '"' ∧ ¬ c = '\\' := by
        constructor <;> (intro he; exact hc (by simp [he]))
      obtain ⟨e, es, he⟩ : ∃ e es, escChars cs ++ '"' :: rest = e :: es := by
        cases hx : escChars cs with
        | nil => exact ⟨'"', rest, by simp [hx]⟩
        | cons a as => exact ⟨a, as ++ '"' :: rest, by simp [hx]⟩
      rw [List.cons_append, he, parseStrBody, if_neg hne.1, if_neg hne.2, ← he, ih]
      rfl

/-! ## The value-level round trip -/

theorem sizeJ_pos (v : Json) : 1 ≤ sizeJ v := by
  cases v <;> simp [sizeJ]

theorem renderNum_head (m : Int) (s : Nat) :
    ∃ c cs, renderNum m s = c :: cs ∧ (c = '-' ∨ isDigitCh c = true) := by
  rw [renderNum]
  by_cases hm : m < 0
  · rw [if_pos hm]
    exact ⟨'-', _, rfl, Or.inl rfl⟩
  · rw [if_neg hm]
    obtain ⟨c, cs, h1, h2⟩ := numCore_head s _ (padDigits_all (natDigits_all _ _))
      (padDigits_len _ _ (natDigits_ne_nil (m.natAbs + 1) m.natAbs (Nat.succ_pos _)))
    exact ⟨c, cs, h1, Or.inr h2⟩

theorem numHead_ne {c : Char} (h : c = '-' ∨ isDigitCh c = true) :
    ¬ c = 'n' ∧ ¬ c = 't' ∧ ¬ c = 'f' ∧ ¬ c = '"' ∧ ¬ c = '[' ∧ ¬ c = '{' := by
  rcases h with h | h
  · subst h
    exact ⟨by decide, by decide, by decide, by decide, by decide, by decide⟩
  · refine ⟨?_, ?_, ?_, ?_, ?_, ?_⟩ <;>
      (intro he; rw [he] at h; exact absurd h (by decide))

/-- The first character of a rendered value is never a closing bracket. -/
theorem renderJ_head (v : Json) :
    ∃ c cs, renderJ v = c :: cs ∧ ¬ c = ']' ∧ ¬ c = '}' := by
  cases v with
  | null => exact ⟨'n', _, rfl, by decide, by decide⟩
  | bool b => cases b with
    | true => exact ⟨'t', _, rfl, by decide, by decide⟩
    | false => exact ⟨'f', _, rfl, by decide, by decide⟩
  | num m s =>
    obtain ⟨c, cs, h1, h2⟩ := renderNum_head m s
    refine ⟨c, cs, h1, ?_, ?_⟩ <;>
      (rcases h2 with h2 | h2
       · subst h2; decide
       · intro he; rw [he] at h2; exact absurd h2 (by decide))
  | str s => exact ⟨'"', _, rfl, by decide, by decide⟩
  | arr xs => exact ⟨'[', _, rfl, by decide, by decide⟩
  | obj fs => exact ⟨'{', _, rfl, by decide, by decide⟩

/-- The first characters of a non-empty rendered array body. -/
theorem renderArr_head (x : Json) (t : JsonArr) :
    ∃ c cs, renderArr (.cons x t) = c :: cs ∧ ¬ c = ']' ∧ ¬ c = '}' := by
  obtain ⟨c, cs, h1, h2, h3⟩ := renderJ_head x
  cases t with
  | nil => exact ⟨c, cs, by rw [renderArr, h1], h2, h3⟩
  | cons y t2 =>
    exact ⟨c, cs ++ ',' :: renderArr (.cons y t2), by rw [renderArr, h1]; rfl, h2, h3⟩

theorem if_head_cons_pos {α : Type} (c : Char) (cs : List Char) (a b : α) :
    (if (c :: cs).head? = some c then a else b) = a := by
  simp

theorem if_head_cons_neg {α : Type} {c c2 : Char} (h : ¬ c = c2) (cs : List Char)
    (a b : α) : (if (c :: cs).head? = some c2 then a else b) = b := by
  simp [h]

/-- The round trip at every size: rendered values parse back to themselves
(values, non-empty array bodies, non-empty field lists), given enough fuel,
canonical object keys, and safely delimited trailing text. -/
theorem parse_render_all : ∀ N : Nat,
    (∀ v : Json, sizeJ v ≤ N → ∀ fuel rest, sizeJ v < fuel → v.canonical = true →
      headSafe rest = true → parseValue fuel (renderJ v ++ rest) = some (v, rest)) ∧
    (∀ (x : Json) (t : JsonArr), sizeA (.cons x t) ≤ N → ∀ fuel rest,
      sizeA (.cons x t) < fuel → JsonArr.canonical (.cons x t) = true →
      parseArrElems fuel (renderArr (.cons x t) ++ ']' :: rest) =
        some (.cons x t, rest)) ∧
    (∀ (k : String) (v : Json) (t : JsonObj), sizeO (.cons k v t) ≤ N →
      ∀ fuel rest, sizeO (.cons k v t) < fuel →
      JsonObj.sortedB (.cons k v t) = true → JsonObj.canonical (.cons k v t) = true →
      parseObjFields fuel (renderObj (.cons k v t) ++ '}' :: rest) =
        some (.cons k v t, rest)) := by
  intro N
  induction N using Nat.strong_induction_on with
  | _ N ih =>
    refine ⟨?_, ?_, ?_⟩
    · intro v hN fuel rest hfuel hcan hsafe
      have hvpos := sizeJ_pos v
      cases fuel with
      | zero => omega
      | succ F =>
        cases v with
        | null => rfl
        | bool b => cases b <;> rfl
        | num m sc =>
          rw [renderJ]
          obtain ⟨c, cs2, hcs, hcd⟩ := renderNum_head m sc
          rw [hcs, List.cons_append, parseValue]
          obtain ⟨hn, ht, hf, hq, hbr, hbc⟩ := numHead_ne hcd
          rw [if_neg hn, if_neg ht, if_neg hf, if_neg hq, if_neg hbr, if_neg hbc]
          rw [← List.cons_append, ← hcs, parseNum_render m sc rest hsafe]
          rfl
        | str s =>
          have hnorm : renderJ (.str s) ++ rest =
              '"' :: (escChars s.data ++ '"' :: rest) := by
            rw [renderJ]
            simp
          rw [hnorm, parseValue]
          rw [if_neg (by decide), if_neg (by decide), if_neg (by decide), if_pos rfl]
          rw [parseStrBody_esc]
          rfl
        | arr xs =>
          cases xs with
          | nil => rfl
          | cons x t =>
            have hnorm : renderJ (.arr (.cons x t)) ++ rest =
                '[' :: (renderArr (.cons x t) ++ ']' :: rest) := by
              rw [renderJ]
              simp
            rw [hnorm, parseValue]
            rw [if_neg (by decide), if_neg (by decide), if_neg (by decide),
              if_neg (by decide), if_pos rfl]
            obtain ⟨c, cs2, hcs, hne1, _⟩ := renderArr_head x t
            rw [hcs, List.cons_append, if_head_cons_neg (by intro he; exact hne1 he)]
            rw [← List.cons_append, ← hcs]
            have hsz : sizeJ (Json.arr (.cons x t)) = 1 + sizeA (.cons x t) := rfl
            have hA := (ih (N - 1) (by omega)).2.1 x t (by omega) F rest
              (by omega) (by simpa [Json.canonical] using hcan)
            rw [hA]
            rfl
        | obj fs =>
          cases fs with
          | nil => rfl
          | cons k v t =>
            have hnorm : renderJ (.obj (.cons k v t)) ++ rest =
                '{' :: (renderObj (.cons k v t) ++ '}' :: rest) := by
              rw [renderJ]
              simp
            rw [hnorm, parseValue]
            rw [if_neg (by decide), if_neg (by decide), if_neg (by decide),
              if_neg (by decide), if_neg (by decide), if_pos rfl]
            have hhead : ∃ cs2, renderObj (.cons k v t) = '"' :: cs2 := by
              cases t with
              | nil => exact ⟨_, by rw [renderObj]⟩
              | cons k2 v2 t2 => exact ⟨_, by rw [renderObj]; rfl⟩
            obtain ⟨cs2, hcs⟩ := hhead
            rw [hcs, List.cons_append, if_head_cons_neg (by decide)]
            rw [← List.cons_append, ← hcs]
            have hsz : sizeJ (Json.obj (.cons k v t)) = 1 + sizeO (.cons k v t) := rfl
            have hsort : JsonObj.sortedB (.cons k v t) = true := by
              have := hcan
              rw [Json.canonical, Bool.and_eq_true] at this
              exact this.1
            have hcO : JsonObj.canonical (.cons k v t) = true := by
              have := hcan
              rw [Json.canonical, Bool.and_eq_true] at this
              exact this.2
            have hO := (ih (N - 1) (by omega)).2.2 k v t (by omega) F rest
              (by omega) hsort hcO
            rw [hO]
            rfl
    · intro x t hN fuel rest hfuel hcan
      cases fuel with
      | zero =>
        have := sizeJ_pos x
        simp [sizeA] at hfuel
      | succ F =>
        have hcx : x.canonical = true := by
          rw [JsonArr.canonical, Bool.and_eq_true] at hcan
          exact hcan.1
        have hszx := sizeJ_pos x
        have hszA : sizeA (JsonArr.cons x t) = 1 + sizeJ x + sizeA t := rfl
        cases t with
        | nil =>
          have hJ := (ih (N - 1) (by omega)).1 x (by omega) F (']' :: rest)
            (by omega) hcx (by rfl)
          rw [parseArrElems, renderArr, hJ]
          rfl
        | cons y t2 =>
          have hnorm : renderArr (.cons x (.cons y t2)) ++ ']' :: rest =
              renderJ x ++ ',' :: (renderArr (.cons y t2) ++ ']' :: rest) := by
            rw [renderArr]
            simp
          have hJ := (ih (N - 1) (by omega)).1 x (by omega) F
            (',' :: (renderArr (.cons y t2) ++ ']' :: rest)) (by omega) hcx (by rfl)
          rw [parseArrElems, hnorm, hJ]
          show (parseArrElems F (renderArr (.cons y t2) ++ ']' :: rest)).map
              (fun pr => (JsonArr.cons x pr.1, pr.2)) = _
          have hcy : JsonArr.canonical (.cons y t2) = true := by
            rw [JsonArr.canonical, Bool.and_eq_true] at hcan
            exact hcan.2
          have hszy : sizeA (JsonArr.cons y t2) = 1 + sizeJ y + sizeA t2 := rfl
          have hA2 := (ih (N - 1) (by omega)).2.1 y t2 (by omega) F rest
            (by omega) hcy
          rw [hA2]
          rfl
    · intro k v t hN fuel rest hfuel hsort hcO
      cases fuel with
      | zero =>
        have := sizeJ_pos v
        simp [sizeO] at hfuel
      | succ F =>
        have hcv : v.canonical = true := by
          rw [JsonObj.canonical, Bool.and_eq_true] at hcO
          exact hcO.1
        have hszv := sizeJ_pos v
        have hszO : sizeO (JsonObj.cons k v t) = 1 + sizeJ v + sizeO t := rfl
        cases t with
        | nil =>
          have hnorm : renderObj (.cons k v .nil) ++ '}' :: rest =
              '"' :: (escChars k.data ++ '"' :: (':' :: (renderJ v ++ '}' :: rest))) := by
            rw [renderObj]
            simp
          have hJ := (ih (N - 1) (by omega)).1 v (by omega) F ('}' :: rest)
            (by omega) hcv (by rfl)
          rw [parseObjFields, hnorm, if_head_cons_pos, List.tail_cons,
            parseStrBody_esc]
          show (if (':' :: (renderJ v ++ '}' :: rest)).head? = some ':' then _ else _) = _
          rw [if_head_cons_pos, List.tail_cons, hJ]
          rfl
        | cons k2 v2 t2 =>
          have hnorm : renderObj (.cons k v (.cons k2 v2 t2)) ++ '}' :: rest =
              '"' :: (escChars k.data ++ '"' ::
                (':' :: (renderJ v ++
                  ',' :: (renderObj (.cons k2 v2 t2) ++ '}' :: rest)))) := by
            rw [renderObj]
            simp
          have hJ := (ih (N - 1) (by omega)).1 v (by omega) F
            (',' :: (renderObj (.cons k2 v2 t2) ++ '}' :: rest)) (by omega) hcv (by rfl)
          rw [parseObjFields, hnorm, if_head_cons_pos, List.tail_cons,
            parseStrBody_esc]
          show (if (':' :: (renderJ v ++
              ',' :: (renderObj (.cons k2 v2 t2) ++ '}' :: rest))).head? = some ':'
            then _ else _) = _
          rw [if_head_cons_pos, List.tail_cons, hJ]
          show (if (',' :: (renderObj (.cons k2 v2 t2) ++ '}' :: rest)).head? = some ','
              then (parseObjFields F
                (',' :: (renderObj (.cons k2 v2 t2) ++ '}' :: rest)).tail).map
                (fun pr => (pr.1.insertS (String.mk k.data) v, pr.2))
            else _) = _
          rw [if_head_cons_pos, List.tail_cons]
          have hsort2 : JsonObj.sortedB (.cons k2 v2 t2) = true := by
            rw [JsonObj.sortedB, Bool.and_eq_true] at hsort
            exact hsort.2
          have hcO2 : JsonObj.canonical (.cons k2 v2 t2) = true := by
            rw [JsonObj.canonical, Bool.and_eq_true] at hcO
            exact hcO.2
          have hszO2 : sizeO (JsonObj.cons k2 v2 t2) = 1 + sizeJ v2 + sizeO t2 := rfl
          have hO2 := (ih (N - 1) (by omega)).2.2 k2 v2 t2 (by omega) F rest
            (by omega) hsort2 hcO2
          rw [hO2]
          have hlt : strLt k k2 = true := by
            rw [JsonObj.sortedB, Bool.and_eq_true] at hsort
            exact hsort.1
          show some (((JsonObj.cons k2 v2 t2).insertS (String.mk k.data) v), rest) = _
          rw [JsonObj.insertS]
          rw [if_pos (show strLt (String.mk k.data) k2 = true from hlt)]

/-- Every value's node count is bounded by its rendered length (so the
document-level fuel suffices). -/
theorem size_le_render_all : ∀ N : Nat,
    (∀ v : Json, sizeJ v ≤ N → sizeJ v ≤ (renderJ v).length) ∧
    (∀ xs : JsonArr, sizeA xs ≤ N → sizeA xs ≤ (renderArr xs).length + 1) ∧
    (∀ fs : JsonObj, sizeO fs ≤ N → sizeO fs ≤ (renderObj fs).length + 1) := by
  intro N
  induction N using Nat.strong_induction_on with
  | _ N ih =>
    refine ⟨?_, ?_, ?_⟩
    · intro v hN
      cases v with
      | null => simp [sizeJ, renderJ]
      | bool b => cases b <;> simp [sizeJ, renderJ]
      | num m s =>
        obtain ⟨c, cs, hcs, _⟩ := renderNum_head m s
        have : renderJ (.num m s) = renderNum m s := rfl
        rw [this, hcs]
        simp [sizeJ]
      | str s =>
        have : renderJ (.str s) = '"' :: (escChars s.data ++ ['"']) := rfl
        rw [this]
        simp [sizeJ]
      | arr xs =>
        have hsz : sizeJ (Json.arr xs) = 1 + sizeA xs := rfl
        have hNpos : 1 ≤ N := by
          have := sizeJ_pos (Json.arr xs)
          omega
        have hA := (ih (N - 1) (by omega)).2.1 xs (by omega)
        have hlen : (renderJ (.arr xs)).length = (renderArr xs).length + 2 := by
          have : renderJ (.arr xs) = '[' :: (renderArr xs ++ [']']) := rfl
          rw [this]
          simp
        omega
      | obj fs =>
        have hsz : sizeJ (Json.obj fs) = 1 + sizeO fs := rfl
        have hNpos : 1 ≤ N := by
          have := sizeJ_pos (Json.obj fs)
          omega
        have hO := (ih (N - 1) (by omega)).2.2 fs (by omega)
        have hlen : (renderJ (.obj fs)).length = (renderObj fs).length + 2 := by
          have : renderJ (.obj fs) = '{' :: (renderObj fs ++ ['}']) := rfl
          rw [this]
          simp
        omega
    · intro xs hN
      cases xs with
      | nil => simp [sizeA]
      | cons x t =>
        have hsz : sizeA (JsonArr.cons x t) = 1 + sizeJ x + sizeA t := rfl
        have hxpos := sizeJ_pos x
        have hNpos : 1 ≤ N := by omega
        have hx := (ih (N - 1) (by omega)).1 x (by omega)
        cases t with
        | nil =>
          have : renderArr (.cons x .nil) = renderJ x := rfl
          rw [this]
          simp [sizeA] at hsz ⊢
          omega
        | cons y t2 =>
          have ht := (ih (N - 1) (by omega)).2.1 (JsonArr.cons y t2) (by omega)
          have hlen : (renderArr (.cons x (.cons y t2))).length =
              (renderJ x).length + 1 + (renderArr (.cons y t2)).length := by
            have : renderArr (.cons x (.cons y t2)) =
                renderJ x ++ ',' :: renderArr (.cons y t2) := rfl
            rw [this]
            simp
            omega
          omega
    · intro fs hN
      cases fs with
      | nil => simp [sizeO]
      | cons k v t =>
        have hsz : sizeO (JsonObj.cons k v t) = 1 + sizeJ v + sizeO t := rfl
        have hvpos := sizeJ_pos v
        have hNpos : 1 ≤ N := by omega
        have hv := (ih (N - 1) (by omega)).1 v (by omega)
        cases t with
        | nil =>
          have hlen : (renderObj (.cons k v .nil)).length =
              (escChars k.data).length + 3 + (renderJ v).length := by
            have : renderObj (.cons k v .nil) =
                '"' :: (escChars k.data ++ '"' :: ':' :: renderJ v) := rfl
            rw [this]
            simp
            omega
          simp [sizeO] at hsz ⊢
          omega
        | cons k2 v2 t2 =>
          have ht := (ih (N - 1) (by omega)).2.2 (JsonObj.cons k2 v2 t2) (by omega)
          have hlen : (renderObj (.cons k v (.cons k2 v2 t2))).length =
              (escChars k.data).length + 3 + (renderJ v).length + 1 +
                (renderObj (.cons k2 v2 t2)).length := by
            have : renderObj (.cons k v (.cons k2 v2 t2)) =
                ('"' :: (escChars k.data ++ '"' :: ':' :: renderJ v)) ++
                  ',' :: renderObj (.cons k2 v2 t2) := rfl
            rw [this]
            simp
            omega
          omega

theorem sizeJ_le_renderJ (v : Json) : sizeJ v ≤ (renderJ v).length :=
  (size_le_render_all (sizeJ v)).1 v le_rfl

/-- A canonical value rendered to text parses back to itself. -/
theorem Json.parse_render (v : Json) (hc : v.canonical = true) :
    Json.parse (String.mk (renderJ v)) = some v := by
  rw [Json.parse]
  have hdata : (String.mk (renderJ v)).data = renderJ v := rfl
  rw [hdata]
  have h := (parse_render_all (sizeJ v)).1 v le_rfl ((renderJ v).length + 1) []
    (by have := sizeJ_le_renderJ v; omega) hc rfl
  rw [List.append_nil] at h
  rw [h]

/-! ## Claim C10 -/

/-- C10: record construction then access is a lossless round trip at the
binding surface — `record.id` returns exactly the id supplied (`none` stays
`none`), and for every canonical JSON value, constructing a record from its
rendered payload string succeeds and parsing `record.payload` yields exactly
that value, nested objects and numeric fields included. -/
theorem c10_record_roundtrip :
    (∀ (idv : Option String) (s : String) (r : ZiRecord),
      ZiRecord.new idv s = .ok r → r.id = idv) ∧
    (∀ (idv : Option String) (v : Json), v.canonical = true →
      ZiRecord.new idv (String.mk (renderJ v)) = .ok ⟨idv, v, .nil⟩ ∧
      Json.parse (ZiRecord.payloadStr ⟨idv, v, .nil⟩) = some v) := by
  constructor
  · intro idv s r h
    rw [ZiRecord.new] at h
    cases hx : Json.parse s with
    | some v =>
      rw [hx] at h
      injection h with h
      rw [← h]
    | none =>
      rw [hx] at h
      exact absurd h (by simp)
  · intro idv v hc
    have hp := Json.parse_render v hc
    constructor
    · rw [ZiRecord.new, hp]
    · exact hp

/-- C10 witness: the nested payload of `test_record_payload_access`
round-trips through construction and access, and the id is returned
unchanged. -/
theorem c10_record_roundtrip_witness :
    c10Payload.canonical = true ∧
    ZiRecord.new (some "1") (String.mk (renderJ c10Payload)) =
      .ok ⟨some "1", c10Payload, .nil⟩ ∧
    Json.parse (ZiRecord.payloadStr ⟨some "1", c10Payload, .nil⟩) =
      some c10Payload ∧
    (⟨some "1", c10Payload, .nil⟩ : ZiRecord).id = some "1" :=
  ⟨by decide,
   (c10_record_roundtrip.2 (some "1") c10Payload (by decide)).1,
   (c10_record_roundtrip.2 (some "1") c10Payload (by decide)).2,
   c10_record_roundtrip.1 (some "1") (String.mk (renderJ c10Payload))
     ⟨some "1", c10Payload, .nil⟩
     ((c10_record_roundtrip.2 (some "1") c10Payload (by decide)).1)⟩

/-! ## Claim C4 -/

/-- C4 counterexample: `ZiOperator("filter.equals", "{}")` constructs
successfully — exactly what the repository's `test_operator_repr` exercises —
even though the required `path` and `equals` fields are missing, so the claim
that a config lacking a required field fails at construction with
`InvalidConfig` is false. -/
theorem c4_eager_validation_counterexample :
    ZiOperator.new "filter.equals" "{}" = .ok ⟨"filter.equals", .nil⟩ := rfl

/-- C4 (amended): construction validates the operator name and the config's
syntax eagerly — an unregistered name fails with `UnknownOperator`, a config
string that is not valid JSON fails with `InvalidConfig` — but a
syntactically valid config lacking required fields is accepted at
construction (required-field validation is not eager).  Apply degrades per
record instead of aborting: a filter distributes over batch concatenation (a
bad record affects only itself), and a record whose field is absent or
non-numeric simply fails the predicate. -/
theorem c4_validation_amended :
    ZiOperator.new "filter.equals" "{}" = .ok ⟨"filter.equals", .nil⟩ ∧
    ZiOperator.new "definitely.unknown" "{}" = .error .unknownOperator ∧
    ZiOperator.new "filter.equals" "not json" = .error .invalidConfig ∧
    (∀ (p : PathSpec) (v : Json) (B1 B2 : List ZiRecord),
      filterEqualsApply p v (B1 ++ B2) =
        filterEqualsApply p v B1 ++ filterEqualsApply p v B2) ∧
    filterBetweenKeep scorePath 5 0 12 0 (textRec "x" "oops") = false ∧
    filterBetweenKeep scorePath 5 0 12 0
      ⟨some "y", .obj (.cons "score" (.str "not a number") .nil), .nil⟩ = false :=
  ⟨rfl, rfl, rfl, fun p v B1 B2 => List.filter_append _ _, by decide, by decide⟩

end Zi
